import Mathlib

/-!
# A verification development for the Go trie of `snario/algoholic`

Source: `src/graph/trie/go/trie.go`.

The Go code is a pointer structure: every `*Trie` node holds a map of child
pointers and a back pointer to its parent, and `Insert` mutates nodes in place.
The embedding keeps that shape.  A `Heap` is the list of all nodes allocated so
far, a pointer is an index into it (`Addr`), the nil pointer is `none`, and every
mutating method takes the heap and returns the new heap.

* Go strings are byte sequences (`GoString`).  `for i, chr = range str` decodes
  UTF-8 (`rangeStr`); `str[0]` and `str[1:]` work on bytes.
* A Go `map` is an association list with unique keys (`GoMap`); its iteration
  order, which Go leaves unspecified, is the order of first insertion of the keys.
* `interface{}` values are `Option V`, with `none` for `nil`.
* Loops that follow pointers (`String`, `Walk`) carry fuel and return `none` when
  it runs out; the fuel given by the entry points is the number of allocated
  nodes plus one.
-/

set_option autoImplicit false

namespace Algoholic

/-! ## Go values -/

/-- Go `rune` (an `int32`); every rune that arises here is a code point, so it is
never negative. -/
abbrev Rune := Nat

/-- Go `string`: a sequence of bytes (each below 256). -/
abbrev GoString := List Nat

/-- Pointer to a heap-allocated node: an index into the heap. -/
abbrev Addr := Nat

/-- Go `map[K]T` as an association list with pairwise distinct keys. -/
abbrev GoMap (κ ν : Type) := List (κ × ν)

/-- Map read `m[k]`, with `none` when the key is absent. -/
def mapGet {κ ν : Type} [DecidableEq κ] : GoMap κ ν → κ → Option ν
  | [], _ => none
  | (k, v) :: m, q => if k = q then some v else mapGet m q

/-- Map write `m[k] = v`: replaces the entry of `k` when there is one, adds one
otherwise. -/
def mapSet {κ ν : Type} [DecidableEq κ] : GoMap κ ν → κ → ν → GoMap κ ν
  | [], q, w => [(q, w)]
  | (k, v) :: m, q, w => if k = q then (k, w) :: m else (k, v) :: mapSet m q w

/-- The keys of a map, in iteration order. -/
def mapKeys {κ ν : Type} (m : GoMap κ ν) : List κ := m.map Prod.fst

/-! ## UTF-8, as the Go runtime implements it for `range` and `string([]rune)` -/

/-- The replacement character U+FFFD, produced for invalid UTF-8. -/
def RuneError : Rune := 0xFFFD

/-- Continuation byte test, `locb <= b && b <= hicb`. -/
def isCont (b : Nat) : Bool := 0x80 ≤ b && b ≤ 0xBF

/-- Go runtime `decoderune`, for a lead byte that is not ASCII: the rune at the
head of `s` and the number of bytes it takes.  Masks and shifts are written with
`%` and `*`. -/
def decoderune : GoString → Rune × Nat
  | [] => (RuneError, 1)
  | b0 :: rest =>
    if 0xC0 ≤ b0 ∧ b0 < 0xE0 then
      match rest with
      | b1 :: _ =>
        if isCont b1 ∧ 0x7F < (b0 % 32) * 64 + b1 % 64 then
          ((b0 % 32) * 64 + b1 % 64, 2)
        else (RuneError, 1)
      | _ => (RuneError, 1)
    else if 0xE0 ≤ b0 ∧ b0 < 0xF0 then
      match rest with
      | b1 :: b2 :: _ =>
        let r := (b0 % 16) * 4096 + (b1 % 64) * 64 + b2 % 64
        if isCont b1 ∧ isCont b2 ∧ 0x7FF < r ∧ ¬ (0xD800 ≤ r ∧ r ≤ 0xDFFF) then (r, 3)
        else (RuneError, 1)
      | _ => (RuneError, 1)
    else if 0xF0 ≤ b0 ∧ b0 < 0xF8 then
      match rest with
      | b1 :: b2 :: b3 :: _ =>
        let r := (b0 % 8) * 262144 + (b1 % 64) * 4096 + (b2 % 64) * 64 + b3 % 64
        if isCont b1 ∧ isCont b2 ∧ isCont b3 ∧ 0xFFFF < r ∧ r ≤ 0x10FFFF then (r, 4)
        else (RuneError, 1)
      | _ => (RuneError, 1)
    else (RuneError, 1)

/-- One step of `range` over a string: an ASCII byte is its own rune, anything
else goes through `decoderune`. -/
def decodeStep : GoString → Rune × Nat
  | [] => (RuneError, 1)
  | b0 :: rest => if b0 < 0x80 then (b0, 1) else decoderune (b0 :: rest)

/-- The iterations of `for i, chr = range s`, started at byte offset `pos`: the
pairs (byte index, rune) in order.  Every step consumes at least one byte, so
fuel `s.length` is enough. -/
def rangeAux : Nat → Nat → GoString → List (Nat × Rune)
  | 0, _, _ => []
  | _ + 1, _, [] => []
  | fuel + 1, pos, b0 :: rest =>
    let rw := decodeStep (b0 :: rest)
    (pos, rw.1) :: rangeAux fuel (pos + rw.2) ((b0 :: rest).drop rw.2)

/-- The pairs (byte index, rune) that `for i, chr = range str` runs through. -/
def rangeStr (str : GoString) : List (Nat × Rune) := rangeAux str.length 0 str

/-- Go runtime `encoderune`: the UTF-8 bytes of one rune. -/
def encoderune (r : Rune) : GoString :=
  if r ≤ 0x7F then [r]
  else if r ≤ 0x7FF then [0xC0 + r / 64, 0x80 + r % 64]
  else if 0x10FFFF < r ∨ (0xD800 ≤ r ∧ r ≤ 0xDFFF) then [0xEF, 0xBF, 0xBD]
  else if r ≤ 0xFFFF then [0xE0 + r / 4096, 0x80 + (r / 64) % 64, 0x80 + r % 64]
  else [0xF0 + r / 262144, 0x80 + (r / 4096) % 64, 0x80 + (r / 64) % 64, 0x80 + r % 64]

/-- Go conversion `string(chrs)` of a rune slice. -/
def runesToString (chrs : List Rune) : GoString := (chrs.map encoderune).flatten

/-! ## The node type and the heap -/

/-- The struct `Trie` of `trie.go`. -/
structure Trie (V : Type) where
  Char : Rune
  Children : GoMap Rune Addr
  Parent : Option Addr
  Terminal : Bool
  Value : Option V

/-- All nodes allocated so far; node `a` lives at index `a`. -/
abbrev Heap (V : Type) := List (Trie V)

/-- The constant `RootTrieChar = rune(0)`. -/
def RootTrieChar : Rune := 0

/-- Pointer dereference.  Addresses are only ever produced by `NewTrie`, so they
are in range; out of range the zero value of the struct is read. -/
def deref {V : Type} (h : Heap V) (a : Addr) : Trie V :=
  (h.get? a).getD ⟨0, [], none, false, none⟩

/-- Constructor `NewTrie(parent, chr)`: allocates a node with the given character and parent,
an empty children map, not terminal, nil value.  Returns the new heap and the
pointer to the node.  (The source writes the struct literal positionally as
`Trie{chr, parent, make(...), false, nil}`; the fields are taken as the doc comment
of `NewTrie` names them.) -/
def NewTrie {V : Type} (h : Heap V) (parent : Option Addr) (chr : Rune) : Heap V × Addr :=
  (h ++ [⟨chr, [], parent, false, none⟩], h.length)

/-- Constructor `NewRootTrie()`. -/
def NewRootTrie {V : Type} (h : Heap V) : Heap V × Addr :=
  NewTrie h none RootTrieChar

/-! ## Lookup -/

/-- Method `trie.FindTrie(str)`: follows `rune(str[0])` and recurses on `str[1:]`; `none`
is the nil pointer. -/
def Trie.FindTrie {V : Type} (h : Heap V) : Addr → GoString → Option Addr
  | trie, [] => some trie
  | trie, b :: rest =>
    match mapGet (deref h trie).Children b with
    | some next => Trie.FindTrie h next rest
    | none => none

/-- Method `trie.Find(str)`: the pair `(val, has)`. -/
def Trie.Find {V : Type} (h : Heap V) (trie : Addr) (str : GoString) : Option V × Bool :=
  match Trie.FindTrie h trie str with
  | none => (none, false)
  | some ret => if (deref h ret).Terminal then ((deref h ret).Value, true) else (none, false)

/-! ## Insert -/

/-- The first loop of `Insert` ("search through existing nodes") over the
remaining iterations of `range str`.  `i` is the current value of the variable
`i`; each iteration first assigns the byte index to it and then either descends
or breaks.  Returns the final `i` and `trie`. -/
def Trie.searchLoop {V : Type} (h : Heap V) : List (Nat × Rune) → Nat → Addr → Nat × Addr
  | [], i, trie => (i, trie)
  | (k, chr) :: rest, _, trie =>
    match mapGet (deref h trie).Children chr with
    | some next => Trie.searchLoop h rest k next
    | none => (k, trie)

/-- The second loop of `Insert` ("insert nodes as necessary") over the runes of
`str[i:]`: allocates a node per rune, stores it in the children map of the
current node under that rune, and moves to it. -/
def Trie.insertLoop {V : Type} : Heap V → List (Nat × Rune) → Addr → Heap V × Addr
  | h, [], trie => (h, trie)
  | h, (_, chr) :: rest, trie =>
    let hn := NewTrie h (some trie) chr
    let t := deref hn.1 trie
    let h2 := hn.1.set trie { t with Children := mapSet t.Children chr hn.2 }
    Trie.insertLoop h2 rest hn.2

/-- Method `trie.Insert(str, val)`: the heap after the call. -/
def Trie.Insert {V : Type} (h : Heap V) (trie : Addr) (str : GoString) (val : Option V) :
    Heap V :=
  let it := Trie.searchLoop h (rangeStr str) 0 trie
  let ht := Trie.insertLoop h (rangeStr (str.drop it.1)) it.2
  ht.1.set ht.2 { deref ht.1 ht.2 with Terminal := true, Value := val }

/-! ## String, Walk, ToMap, FindSuffixes -/

/-- The loop of `String()`: climbs parent pointers while the node is not nil and
its character is not `RootTrieChar`, putting each character in front of `chrs`. -/
def Trie.stringLoop {V : Type} (h : Heap V) : Nat → Option Addr → List Rune → Option (List Rune)
  | _, none, chrs => some chrs
  | 0, some _, _ => none
  | fuel + 1, some trie, chrs =>
    if (deref h trie).Char ≠ RootTrieChar then
      Trie.stringLoop h fuel (deref h trie).Parent ((deref h trie).Char :: chrs)
    else some chrs

/-- Method `trie.String()`. -/
def Trie.String {V : Type} (h : Heap V) (trie : Addr) : Option GoString :=
  (Trie.stringLoop h (h.length + 1) (some trie) []).map runesToString

/-- Method `trie.Walk(fn)` with recursion depth at most `fuel`: the visitor `fn` threads
its own state `σ` (the variables its closure captures) and does not touch the
heap. -/
def Trie.walkFuel {V σ : Type} (h : Heap V) (fn : σ → Addr → Option σ) :
    Nat → Addr → σ → Option σ
  | 0, _, _ => none
  | fuel + 1, trie, s =>
    (fn s trie).bind fun s1 =>
      (deref h trie).Children.foldlM (fun acc kc => Trie.walkFuel h fn fuel kc.2 acc) s1

/-- Method `trie.Walk(fn)`. -/
def Trie.Walk {V σ : Type} (h : Heap V) (fn : σ → Addr → Option σ) (trie : Addr) (s : σ) :
    Option σ :=
  Trie.walkFuel h fn (h.length + 1) trie s

/-- The visitor of `ToMap`: `if node.Terminal { ret[node.String()] = node.Value }`. -/
def Trie.toMapVisit {V : Type} (h : Heap V) (ret : GoMap GoString (Option V)) (node : Addr) :
    Option (GoMap GoString (Option V)) :=
  if (deref h node).Terminal then
    (Trie.String h node).map fun key => mapSet ret key (deref h node).Value
  else some ret

/-- Method `trie.ToMap()`. -/
def Trie.ToMap {V : Type} (h : Heap V) (trie : Addr) : Option (GoMap GoString (Option V)) :=
  Trie.Walk h (Trie.toMapVisit h) trie []

/-- Method `trie.FindSuffixes(prefix)`: the nil slice is the empty list. -/
def Trie.FindSuffixes {V : Type} (h : Heap V) (trie : Addr) (pfx : GoString) :
    Option (List GoString) :=
  match Trie.FindTrie h trie pfx with
  | none => some []
  | some t => (Trie.ToMap h t).map mapKeys

/-! ## Constructors from collections -/

/-- A fresh heap holding only the node of `NewRootTrie()`, which is at address 0. -/
def emptyRoot (V : Type) : Heap V := (NewRootTrie ([] : Heap V)).1

/-- The root pointer of every trie built here. -/
def root : Addr := 0

/-- The heap after `NewRootTrie()` followed by the given `Insert` calls on the root, in order. -/
def insertAll {V : Type} (ops : List (GoString × Option V)) : Heap V :=
  ops.foldl (fun h sv => Trie.Insert h root sv.1 sv.2) (emptyRoot V)

/-- Constructor `NewTrieFromMap(strMap)`, with the pairs of the map given in the order in which
`range strMap` yields them. -/
def NewTrieFromMap {V : Type} (strMap : List (GoString × Option V)) : Heap V :=
  insertAll strMap

/-- Constructor `NewTrieFromStrings(strs)`: every string is inserted with value nil. -/
def NewTrieFromStrings {V : Type} (strs : List GoString) : Heap V :=
  insertAll (strs.map fun s => (s, none))

/-- Number of nodes reachable from `trie`, counted by a `Walk`. -/
def nodeCount {V : Type} (h : Heap V) (trie : Addr) : Option Nat :=
  Trie.Walk h (fun n _ => some (n + 1)) trie 0

/-- Whether `s` starts with `p`: `len(s) >= len(p) && s[:len(p)] == p`. -/
def startsWith (s p : GoString) : Bool := p.length ≤ s.length && s.take p.length == p

/-! ## Well-formed heaps, subtrees and the preorder list

These definitions are not in the source: they state the invariants that the heaps
built by `Insert` satisfy and the notions the properties below are about.
-/

/-- One iteration of the second loop of `Insert`, seen as a heap transformer:
`next := NewTrie(trie, chr); trie.Children[chr] = next`.  The new node sits at
address `h.length`. -/
def addChild {V : Type} (h : Heap V) (trie : Addr) (chr : Rune) : Heap V :=
  let hn := NewTrie h (some trie) chr
  let t := deref hn.1 trie
  hn.1.set trie { t with Children := mapSet t.Children chr hn.2 }

/-- The last two statements of `Insert`: `trie.Terminal = true; trie.Value = val`. -/
def markTerminal {V : Type} (h : Heap V) (trie : Addr) (val : Option V) : Heap V :=
  h.set trie { deref h trie with Terminal := true, Value := val }

/-- The heap after the second loop and the last two statements of `Insert`, when
the first loop has stopped at the node `b` and `l` are the iterations of the
second loop. -/
def graft {V : Type} (h : Heap V) (b : Addr) (l : List (Nat × Rune)) (val : Option V) :
    Heap V :=
  markTerminal (Trie.insertLoop h l b).1 (Trie.insertLoop h l b).2 val

/-- Well-formed heap: the root is allocated and has no parent; every entry
`k -> c` of a children map points to a later allocated node whose character is `k`
and whose parent is the owner of the map; the keys of a children map are distinct;
a parent pointer points to an earlier node. -/
structure WF {V : Type} (h : Heap V) : Prop where
  nonempty : 0 < h.length
  rootParent : (deref h root).Parent = none
  child : ∀ n k c : Nat, (k, c) ∈ (deref h n).Children →
    n < c ∧ c < h.length ∧ (deref h c).Char = k ∧ (deref h c).Parent = some n
  keys : ∀ n : Nat, (mapKeys (deref h n).Children).Nodup
  parent : ∀ n p : Nat, (deref h n).Parent = some p → p < n

/-- The node `a` belongs to the subtree rooted at `n`: it is `n` or is reached from
`n` through entries of children maps. -/
inductive Trie.Desc {V : Type} (h : Heap V) (n : Addr) : Addr → Prop
  | self : Trie.Desc h n n
  | child {p : Addr} {k : Rune} {c : Addr} :
      Trie.Desc h n p → (k, c) ∈ (deref h p).Children → Trie.Desc h n c

/-- The nodes of the subtree rooted at `trie` in preorder, children in the
iteration order of the children maps, to depth `fuel`. -/
def Trie.preorder {V : Type} (h : Heap V) : Nat → Addr → List Addr
  | 0, _ => []
  | fuel + 1, trie =>
    trie :: ((deref h trie).Children.map fun kc => Trie.preorder h fuel kc.2).flatten

/-- Every byte of the string is an ASCII character. -/
def isASCII (s : GoString) : Prop := ∀ b ∈ s, b < 0x80

/-! ## The operations with the run-time faults of Go made explicit

The definitions above are total: a slice of a list cannot be out of range, a map
is a list and is never nil.  To state that no operation fails, the same source is
embedded a second time with every step that can panic in Go returning a `Fault`:
indexing `str[0]`, slicing `str[i:]`, assigning to an entry of a map, and reading
a field through a pointer.  A `Children` map is `none` when it is the nil map;
reading a nil map yields the zero value, as in Go, and writing to it is a fault.
`CTrie.NewTrie` is the only place that makes a map, with `make(map[rune]*Trie)`:
of the five values of the struct literal in `NewTrie` it is the only one of map
type and `Children` is the only field of map type.
-/

/-- The ways an operation can fail at run time. -/
inductive Fault where
  | indexOutOfRange
  | sliceOutOfRange
  | nilMapWrite
  | nilDeref
  | outOfFuel

/-- The struct `Trie` with a `Children` map that may be nil (`none`). -/
structure CTrie (V : Type) where
  Char : Rune
  Children : Option (GoMap Rune Addr)
  Parent : Option Addr
  Terminal : Bool
  Value : Option V

/-- Heap of nodes whose maps may be nil. -/
abbrev CHeap (V : Type) := List (CTrie V)

/-- Index expression `str[i]`: a fault when `i` is not below `len(str)`. -/
def strIndex (str : GoString) (i : Nat) : Except Fault Nat :=
  match str.get? i with
  | some b => .ok b
  | none => .error .indexOutOfRange

/-- Slice expression `str[i:]`: a fault when `i` is above `len(str)`. -/
def strSliceFrom (str : GoString) (i : Nat) : Except Fault GoString :=
  if i ≤ str.length then .ok (str.drop i) else .error .sliceOutOfRange

/-- Map read `m[k]` on a map that may be nil: the nil map reads as empty. -/
def mapRead (m : Option (GoMap Rune Addr)) (k : Rune) : Option Addr :=
  mapGet (m.getD []) k

/-- Map write `m[k] = v` on a map that may be nil: a fault on the nil map. -/
def mapWrite (m : Option (GoMap Rune Addr)) (k : Rune) (v : Addr) :
    Except Fault (Option (GoMap Rune Addr)) :=
  match m with
  | none => .error .nilMapWrite
  | some l => .ok (some (mapSet l k v))

/-- Reading a node through a pointer: a fault when the pointer is to no allocated
node. -/
def cderef {V : Type} (h : CHeap V) (a : Addr) : Except Fault (CTrie V) :=
  match h.get? a with
  | some t => .ok t
  | none => .error .nilDeref

/-- Constructor `NewTrie(parent, chr)` on the heap with nilable maps: the map is made, so
it is not nil. -/
def CTrie.NewTrie {V : Type} (h : CHeap V) (parent : Option Addr) (chr : Rune) :
    CHeap V × Addr :=
  (h ++ [⟨chr, some [], parent, false, none⟩], h.length)

/-- Constructor `NewRootTrie()` on the heap with nilable maps. -/
def CTrie.NewRootTrie {V : Type} (h : CHeap V) : CHeap V × Addr :=
  CTrie.NewTrie h none RootTrieChar

/-- Method `trie.FindTrie(str)` with faults, to recursion depth `fuel`: `str[0]` is
read and `str[1:]` is taken only after the test `len(str) == 0` has failed. -/
def CTrie.findTrieFuel {V : Type} (h : CHeap V) :
    Nat → Addr → GoString → Except Fault (Option Addr)
  | 0, _, _ => .error .outOfFuel
  | fuel + 1, trie, str =>
    if str.length = 0 then .ok (some trie)
    else
      match strIndex str 0 with
      | .error e => .error e
      | .ok b =>
        match cderef h trie with
        | .error e => .error e
        | .ok t =>
          match mapRead t.Children b with
          | some next =>
            match strSliceFrom str 1 with
            | .error e => .error e
            | .ok rest => CTrie.findTrieFuel h fuel next rest
          | none => .ok none

/-- Method `trie.FindTrie(str)` with faults. -/
def CTrie.FindTrie {V : Type} (h : CHeap V) (trie : Addr) (str : GoString) :
    Except Fault (Option Addr) :=
  CTrie.findTrieFuel h (str.length + 1) trie str

/-- Method `trie.Find(str)` with faults: `ret.Terminal` is read only when `ret` is not
nil. -/
def CTrie.Find {V : Type} (h : CHeap V) (trie : Addr) (str : GoString) :
    Except Fault (Option V × Bool) :=
  match CTrie.FindTrie h trie str with
  | .error e => .error e
  | .ok none => .ok (none, false)
  | .ok (some ret) =>
    match cderef h ret with
    | .error e => .error e
    | .ok t => if t.Terminal then .ok (t.Value, true) else .ok (none, false)

/-- The first loop of `Insert` with faults. -/
def CTrie.searchLoop {V : Type} (h : CHeap V) :
    List (Nat × Rune) → Nat → Addr → Except Fault (Nat × Addr)
  | [], i, trie => .ok (i, trie)
  | (k, chr) :: rest, _, trie =>
    match cderef h trie with
    | .error e => .error e
    | .ok t =>
      match mapRead t.Children chr with
      | some next => CTrie.searchLoop h rest k next
      | none => .ok (k, trie)

/-- The second loop of `Insert` with faults: `trie.Children[chr] = next` is a map
write. -/
def CTrie.insertLoop {V : Type} :
    CHeap V → List (Nat × Rune) → Addr → Except Fault (CHeap V × Addr)
  | h, [], trie => .ok (h, trie)
  | h, (_, chr) :: rest, trie =>
    match cderef (CTrie.NewTrie h (some trie) chr).1 trie with
    | .error e => .error e
    | .ok t =>
      match mapWrite t.Children chr (CTrie.NewTrie h (some trie) chr).2 with
      | .error e => .error e
      | .ok m =>
        CTrie.insertLoop
          ((CTrie.NewTrie h (some trie) chr).1.set trie { t with Children := m })
          rest (CTrie.NewTrie h (some trie) chr).2

/-- Method `trie.Insert(str, val)` with faults: `str[i:]` is a slice expression. -/
def CTrie.Insert {V : Type} (h : CHeap V) (trie : Addr) (str : GoString) (val : Option V) :
    Except Fault (CHeap V) :=
  match CTrie.searchLoop h (rangeStr str) 0 trie with
  | .error e => .error e
  | .ok it =>
    match strSliceFrom str it.1 with
    | .error e => .error e
    | .ok rest =>
      match CTrie.insertLoop h (rangeStr rest) it.2 with
      | .error e => .error e
      | .ok ht =>
        match cderef ht.1 ht.2 with
        | .error e => .error e
        | .ok t => .ok (ht.1.set ht.2 { t with Terminal := true, Value := val })

/-- The loop of `String()` with faults. -/
def CTrie.stringLoop {V : Type} (h : CHeap V) :
    Nat → Option Addr → List Rune → Except Fault (List Rune)
  | _, none, chrs => .ok chrs
  | 0, some _, _ => .error .outOfFuel
  | fuel + 1, some trie, chrs =>
    match cderef h trie with
    | .error e => .error e
    | .ok t =>
      if t.Char ≠ RootTrieChar then CTrie.stringLoop h fuel t.Parent (t.Char :: chrs)
      else .ok chrs

/-- Method `trie.String()` with faults. -/
def CTrie.String {V : Type} (h : CHeap V) (trie : Addr) : Except Fault GoString :=
  match CTrie.stringLoop h (h.length + 1) (some trie) [] with
  | .error e => .error e
  | .ok chrs => .ok (runesToString chrs)

/-- Method `trie.Walk(fn)` with faults, to recursion depth `fuel`. -/
def CTrie.walkFuel {V σ : Type} (h : CHeap V) (fn : σ → Addr → Except Fault σ) :
    Nat → Addr → σ → Except Fault σ
  | 0, _, _ => .error .outOfFuel
  | fuel + 1, trie, s =>
    match fn s trie with
    | .error e => .error e
    | .ok s1 =>
      match cderef h trie with
      | .error e => .error e
      | .ok t =>
        (t.Children.getD []).foldlM (fun acc kc => CTrie.walkFuel h fn fuel kc.2 acc) s1

/-- Method `trie.Walk(fn)` with faults. -/
def CTrie.Walk {V σ : Type} (h : CHeap V) (fn : σ → Addr → Except Fault σ) (trie : Addr)
    (s : σ) : Except Fault σ :=
  CTrie.walkFuel h fn (h.length + 1) trie s

/-- The visitor of `ToMap` with faults; `ret` is made by `make`, so the write to it
cannot fail. -/
def CTrie.toMapVisit {V : Type} (h : CHeap V) (ret : GoMap GoString (Option V)) (node : Addr) :
    Except Fault (GoMap GoString (Option V)) :=
  match cderef h node with
  | .error e => .error e
  | .ok t =>
    if t.Terminal then
      match CTrie.String h node with
      | .error e => .error e
      | .ok key => .ok (mapSet ret key t.Value)
    else .ok ret

/-- Method `trie.ToMap()` with faults. -/
def CTrie.ToMap {V : Type} (h : CHeap V) (trie : Addr) :
    Except Fault (GoMap GoString (Option V)) :=
  CTrie.Walk h (CTrie.toMapVisit h) trie []

/-- Method `trie.FindSuffixes(prefix)` with faults. -/
def CTrie.FindSuffixes {V : Type} (h : CHeap V) (trie : Addr) (pfx : GoString) :
    Except Fault (List GoString) :=
  match CTrie.FindTrie h trie pfx with
  | .error e => .error e
  | .ok none => .ok []
  | .ok (some t) =>
    match CTrie.ToMap h t with
    | .error e => .error e
    | .ok m => .ok (mapKeys m)

/-- The heap after `NewRootTrie()` followed by the given `Insert` calls on the root, with
faults. -/
def CTrie.insertAll {V : Type} (ops : List (GoString × Option V)) : Except Fault (CHeap V) :=
  ops.foldlM (fun h sv => CTrie.Insert h root sv.1 sv.2) (CTrie.NewRootTrie ([] : CHeap V)).1

/-- Forgetting the difference between the nil map and the empty map. -/
def CTrie.erase {V : Type} (t : CTrie V) : Trie V :=
  ⟨t.Char, t.Children.getD [], t.Parent, t.Terminal, t.Value⟩

/-- The heap of the total embedding that a heap with nilable maps stands for. -/
def eraseHeap {V : Type} (h : CHeap V) : Heap V := h.map CTrie.erase

/-- No node of the heap has a nil `Children` map. -/
def noNilMap {V : Type} (h : CHeap V) : Prop := ∀ t ∈ h, t.Children ≠ none

/-! ## The scenario of the specification

`Insert` of `"cat" -> 1`, `"car" -> 2`, `"dog" -> 3` in this order never meets a
path that exists in full, and the embedding gives the results the specification
lists.  Bytes: 99 97 116 is `cat`, 99 97 114 is `car`, 100 111 103 is `dog`, 120 is
`x`.
-/

/-- The three-word trie of the scenario. -/
def catCarDog : Heap Nat :=
  NewTrieFromMap [([99, 97, 116], some 1), ([99, 97, 114], some 2), ([100, 111, 103], some 3)]

/-- The scenario of the specification, evaluated: the lookups, the children below
`"ca"`, the suffix enumerations and the full map. -/
theorem scenario_catCarDog :
    Trie.Find catCarDog root [99, 97, 116] = (some 1, true) ∧
    Trie.Find catCarDog root [99, 97] = (none, false) ∧
    (Trie.FindTrie catCarDog root [99, 97]).map
        (fun t => mapKeys (deref catCarDog t).Children) = some [116, 114] ∧
    Trie.FindSuffixes catCarDog root [99, 97] = some [[99, 97, 116], [99, 97, 114]] ∧
    Trie.FindSuffixes catCarDog root [100, 111] = some [[100, 111, 103]] ∧
    Trie.FindSuffixes catCarDog root [120] = some [] ∧
    Trie.ToMap catCarDog root
        = some [([99, 97, 116], some 1), ([99, 97, 114], some 2), ([100, 111, 103], some 3)] := by
  decide

/-! ## The behaviour of `Insert` on a path that already exists

When every rune of `str` has a child, the first loop of `Insert` ends without a
`break`, and `i` keeps the byte index of the last rune instead of `len(str)`.  The
second loop then runs over `str[i:]`, the last character, and stores a fresh node
under that character in the node of `str`; that fresh node, not the node of `str`,
is marked terminal.  The theorems below evaluate the code on inputs that reach this
path.  Bytes: 97 is `a`, 98 is `b`, 99 is `c`.
-/

/-- C1 (round trip), evaluated where it fails.  After `Insert("a", 1)` the call
`Insert("a", 2)` leaves `Find("a")` at `(1, true)`, not `(2, true)`; and after
`Insert("ab", 1)` the call `Insert("a", 2)` leaves `Find("a")` at `(nil, false)`. -/
theorem insert_find_roundtrip_fails :
    Trie.Find (Trie.Insert (insertAll [([97], some 1)]) root [97] (some 2)) root [97]
        = ((some 1 : Option Nat), true) ∧
    Trie.Find (Trie.Insert (insertAll [([97, 98], some 1)]) root [97] (some 2)) root [97]
        = ((none : Option Nat), false) := by
  decide

/-- C2 (full enumeration), evaluated where it fails.  After `Insert("ab", 1)` and
`Insert("a", 2)` the map of `root.ToMap()` is `"ab" -> 1, "aa" -> 2`: it has no key
`"a"`, and it has the key `"aa"`, which was never inserted. -/
theorem toMap_enumeration_fails :
    Trie.ToMap (insertAll [([97, 98], some 1), ([97], some 2)]) root
        = some [([97, 98], (some 1 : Option Nat)), ([97, 97], some 2)] ∧
    (Trie.ToMap (insertAll [([97, 98], some 1), ([97], some 2)]) root).map
        (fun m => (mapGet m [97], mapGet m [97, 97]))
        = some (none, some (some 2 : Option Nat)) := by
  decide

/-- C3 (suffix enumeration), evaluated where it fails.  For `strs = ["ab", "a"]` and
the empty prefix, `FindSuffixes` returns `"ab"` and `"aa"`, while the strings of
`strs` that start with the prefix are `"ab"` and `"a"`. -/
theorem findSuffixes_enumeration_fails :
    Trie.FindSuffixes (NewTrieFromStrings [[97, 98], [97]] : Heap Nat) root []
        = some [[97, 98], [97, 97]] ∧
    (Trie.FindSuffixes (NewTrieFromStrings [[97, 98], [97]] : Heap Nat) root []).map
        (fun r => (decide ([97] ∈ r), decide ([97, 97] ∈ r))) = some (false, true) ∧
    [[97, 98], [97]].filter (fun s => startsWith s []) = [[97, 98], [97]] := by
  decide

/-- C4 (idempotence), evaluated where it fails.  On a fresh root, `Insert("a", 1)`
once gives 2 nodes and `Find("aa") = (nil, false)`; the same call twice gives 3
nodes and `Find("aa") = (1, true)`. -/
theorem insert_twice_differs :
    nodeCount (insertAll [([97], (some 1 : Option Nat))]) root = some 2 ∧
    nodeCount (insertAll [([97], (some 1 : Option Nat)), ([97], some 1)]) root = some 3 ∧
    Trie.Find (insertAll [([97], some 1)]) root [97, 97] = ((none : Option Nat), false) ∧
    Trie.Find (insertAll [([97], some 1), ([97], some 1)]) root [97, 97]
        = ((some 1 : Option Nat), true) := by
  decide

/-- C5 (frame), evaluated where it fails.  In the trie holding `"ab" -> 1`, the
call `Insert("a", 2)` changes `Find("aa")` from `(nil, false)` to `(2, true)`, though
`"aa"` is not the inserted string. -/
theorem insert_changes_other_key :
    Trie.Find (insertAll [([97, 98], some 1)]) root [97, 97] = ((none : Option Nat), false) ∧
    Trie.Find (Trie.Insert (insertAll [([97, 98], some 1)]) root [97] (some 2)) root [97, 97]
        = ((some 2 : Option Nat), true) := by
  decide

/-- C6 (non-existence), evaluated where it fails.  After `Insert("a", 1)` and
`Insert("a", 2)`, `Find("aa")` returns `(2, true)` although `"aa"` is the argument of
neither call. -/
theorem find_never_inserted_found :
    Trie.Find (insertAll [([97], some 1), ([97], some 2)]) root [97, 97]
        = ((some 2 : Option Nat), true) ∧
    [97, 97] ∉ [([97], (some 1 : Option Nat)), ([97], some 2)].map Prod.fst := by
  decide

/-- C7 (order independence), evaluated where it fails.  The map
`"a" -> 1, "ab" -> 2` iterated as `"a", "ab"` gives `Find("a") = (1, true)` and
`ToMap` with keys `"a", "ab"`; iterated as `"ab", "a"` it gives
`Find("a") = (nil, false)` and `ToMap` with keys `"ab", "aa"`. -/
theorem newTrieFromMap_order_matters :
    Trie.Find (NewTrieFromMap [([97], some 1), ([97, 98], some 2)]) root [97]
        = ((some 1 : Option Nat), true) ∧
    Trie.Find (NewTrieFromMap [([97, 98], some 2), ([97], some 1)]) root [97]
        = ((none : Option Nat), false) ∧
    Trie.ToMap (NewTrieFromMap [([97], some 1), ([97, 98], some 2)]) root
        = some [([97], (some 1 : Option Nat)), ([97, 98], some 2)] ∧
    Trie.ToMap (NewTrieFromMap [([97, 98], some 2), ([97], some 1)]) root
        = some [([97, 98], (some 2 : Option Nat)), ([97, 97], some 1)] := by
  decide

/-- C8 (entries are never lost), evaluated where it fails.  In the trie holding
`"aab" -> 1`, `Find("aab") = (1, true)` and `FindTrie("aab")` is the node at address
3; after `Insert("a", 2)` the child `a` of the node of `"a"` is a fresh node at
address 4, `Find("aab") = (nil, false)` and `FindTrie("aab")` is nil. -/
theorem insert_loses_entry :
    Trie.Find (insertAll [([97, 97, 98], some 1)]) root [97, 97, 98]
        = ((some 1 : Option Nat), true) ∧
    Trie.FindTrie (insertAll [([97, 97, 98], (some 1 : Option Nat))]) root [97, 97, 98]
        = some 3 ∧
    Trie.FindTrie (insertAll [([97, 97, 98], (some 1 : Option Nat))]) root [97, 97]
        = some 2 ∧
    Trie.Find (Trie.Insert (insertAll [([97, 97, 98], some 1)]) root [97] (some 2)) root
        [97, 97, 98] = ((none : Option Nat), false) ∧
    Trie.FindTrie (Trie.Insert (insertAll [([97, 97, 98], (some 1 : Option Nat))]) root [97]
        (some 2)) root [97, 97, 98] = none ∧
    Trie.FindTrie (Trie.Insert (insertAll [([97, 97, 98], (some 1 : Option Nat))]) root [97]
        (some 2)) root [97, 97] = some 4 := by
  decide

/-- C9 (prefix containment), evaluated where it fails.  After `Insert("abbc", 1)`
and `Insert("ab", 2)`, the inserted string `"abbc"` starts with `"abbc"`, yet
`FindTrie("abbc")` is nil on the final trie. -/
theorem findTrie_of_inserted_nil :
    Trie.FindTrie (insertAll [([97, 98, 98, 99], (some 1 : Option Nat)), ([97, 98], some 2)])
        root [97, 98, 98, 99] = none ∧
    startsWith [97, 98, 98, 99] [97, 98, 98, 99] = true := by
  decide

/-- C10 (children set), evaluated where it fails.  For `strs = ["ab", "a"]` the
node `FindTrie("a")` has the children keys `b` and `a`, while no string of `strs`
starts with `"aa"`: the set of next characters after `"a"` is `b` alone. -/
theorem children_keys_extra :
    (Trie.FindTrie (NewTrieFromStrings [[97, 98], [97]] : Heap Nat) root [97]).map
        (fun t => mapKeys (deref (NewTrieFromStrings [[97, 98], [97]] : Heap Nat) t).Children)
        = some [98, 97] ∧
    (Trie.FindTrie (NewTrieFromStrings [[97, 98], [97]] : Heap Nat) root [97]).map
        (fun t => mapGet (deref (NewTrieFromStrings [[97, 98], [97]] : Heap Nat) t).Children 97)
        = some (some 3) ∧
    (∀ s ∈ [[97, 98], [97]], startsWith s [97, 97] = false) ∧
    startsWith [97, 98] [97, 98] = true := by
  decide

/-! ## Maps and heap cells -/

theorem mapGet_mapSet_eq {κ ν : Type} [DecidableEq κ] (m : GoMap κ ν) (k : κ) (v : ν) :
    mapGet (mapSet m k v) k = some v := by
  induction m with
  | nil => simp [mapSet, mapGet]
  | cons x m ih =>
    obtain ⟨a, b⟩ := x
    by_cases hk : a = k
    · simp [mapSet, mapGet, hk]
    · simp [mapSet, mapGet, hk, ih]

theorem mapGet_mapSet_ne {κ ν : Type} [DecidableEq κ] (m : GoMap κ ν) (k q : κ) (v : ν)
    (hq : k ≠ q) : mapGet (mapSet m k v) q = mapGet m q := by
  induction m with
  | nil => simp [mapSet, mapGet, hq]
  | cons x m ih =>
    obtain ⟨a, b⟩ := x
    by_cases hk : a = k
    · subst hk
      simp [mapSet, mapGet, hq]
    · by_cases ha : a = q
      · subst ha
        simp [mapSet, mapGet, hk]
      · simp [mapSet, mapGet, hk, ha, ih]

theorem mapGet_mem {κ ν : Type} [DecidableEq κ] (m : GoMap κ ν) (k : κ) (v : ν)
    (hg : mapGet m k = some v) : (k, v) ∈ m := by
  induction m with
  | nil => simp [mapGet] at hg
  | cons x m ih =>
    obtain ⟨a, b⟩ := x
    by_cases hk : a = k
    · simp [mapGet, hk] at hg
      simp [hk, hg]
    · simp [mapGet, hk] at hg
      exact List.mem_cons_of_mem _ (ih hg)

theorem mapGet_of_mem {κ ν : Type} [DecidableEq κ] (m : GoMap κ ν) (k : κ) (v : ν)
    (hn : (mapKeys m).Nodup) (hm : (k, v) ∈ m) : mapGet m k = some v := by
  induction m with
  | nil => simp at hm
  | cons x m ih =>
    obtain ⟨a, b⟩ := x
    simp only [mapKeys, List.map_cons, List.nodup_cons] at hn
    rcases List.mem_cons.mp hm with heq | hin
    · injection heq with h1 h2
      simp [mapGet, h1, h2]
    · have hne : a ≠ k := by
        intro hak
        apply hn.1
        rw [hak]
        exact List.mem_map_of_mem Prod.fst hin
      simp [mapGet, hne]
      exact ih hn.2 hin

theorem mem_mapSet {κ ν : Type} [DecidableEq κ] (m : GoMap κ ν) (k q : κ) (v c : ν)
    (hm : (q, c) ∈ mapSet m k v) : (q = k ∧ c = v) ∨ (q, c) ∈ m := by
  induction m with
  | nil =>
    simp [mapSet] at hm
    exact Or.inl hm
  | cons x m ih =>
    obtain ⟨a, b⟩ := x
    by_cases hk : a = k
    · simp only [mapSet, hk, if_true] at hm
      rcases List.mem_cons.mp hm with heq | hin
      · injection heq with h1 h2
        exact Or.inl ⟨h1, h2⟩
      · exact Or.inr (List.mem_cons_of_mem _ hin)
    · simp only [mapSet, hk, if_false] at hm
      rcases List.mem_cons.mp hm with heq | hin
      · exact Or.inr (by rw [heq]; exact List.mem_cons_self _ _)
      · rcases ih hin with h1 | h1
        · exact Or.inl h1
        · exact Or.inr (List.mem_cons_of_mem _ h1)

theorem mapKeys_mapSet_mem {κ ν : Type} [DecidableEq κ] (m : GoMap κ ν) (k q : κ) (v : ν)
    (hq : q ∈ mapKeys (mapSet m k v)) : q = k ∨ q ∈ mapKeys m := by
  simp only [mapKeys, List.mem_map] at hq ⊢
  obtain ⟨⟨a, b⟩, hab, rfl⟩ := hq
  rcases mem_mapSet m k a v b hab with h1 | h1
  · exact Or.inl h1.1
  · exact Or.inr ⟨(a, b), h1, rfl⟩

theorem mapKeys_mapSet_nodup {κ ν : Type} [DecidableEq κ] (m : GoMap κ ν) (k : κ) (v : ν)
    (hn : (mapKeys m).Nodup) : (mapKeys (mapSet m k v)).Nodup := by
  induction m with
  | nil => simp [mapSet, mapKeys]
  | cons x m ih =>
    obtain ⟨a, b⟩ := x
    have hn2 : a ∉ mapKeys m ∧ (mapKeys m).Nodup := by
      simpa [mapKeys] using hn
    by_cases hk : a = k
    · simp only [mapSet, hk, if_true]
      simpa [mapKeys, hk] using hn
    · simp only [mapSet, hk, if_false]
      have h3 : a ∉ mapKeys (mapSet m k v) := by
        intro hin
        rcases mapKeys_mapSet_mem m k a v hin with h4 | h4
        · exact hk h4
        · exact hn2.1 h4
      have h5 := ih hn2.2
      simp only [mapKeys, List.map_cons, List.nodup_cons]
      exact ⟨h3, h5⟩

theorem deref_of_lt {V : Type} (h : Heap V) (a : Nat) (ha : a < h.length) :
    deref h a = h.get ⟨a, ha⟩ := by
  simp [deref, List.get?_eq_getElem?, List.getElem?_eq_getElem ha]

theorem deref_of_ge {V : Type} (h : Heap V) (a : Nat) (ha : h.length ≤ a) :
    deref h a = ⟨0, [], none, false, none⟩ := by
  simp [deref, List.get?_eq_getElem?, List.getElem?_eq_none ha]

theorem deref_set_eq {V : Type} (h : Heap V) (a : Nat) (t : Trie V) (ha : a < h.length) :
    deref (h.set a t) a = t := by
  simp [deref, List.get?_eq_getElem?, ha]

theorem deref_set_ne {V : Type} (h : Heap V) (a b : Nat) (t : Trie V) (hab : a ≠ b) :
    deref (h.set a t) b = deref h b := by
  simp [deref, List.get?_eq_getElem?, List.getElem?_set_ne hab]

theorem deref_append_lt {V : Type} (h : Heap V) (t : Trie V) (a : Nat) (ha : a < h.length) :
    deref (h ++ [t]) a = deref h a := by
  simp [deref, List.get?_eq_getElem?, List.getElem?_append_left ha]

theorem deref_append_length {V : Type} (h : Heap V) (t : Trie V) :
    deref (h ++ [t]) h.length = t := by
  simp [deref, List.get?_eq_getElem?]

/-! ## The heap transformers of `Insert` -/

theorem addChild_length {V : Type} (h : Heap V) (trie : Nat) (chr : Nat) :
    (addChild h trie chr).length = h.length + 1 := by
  simp [addChild, NewTrie]

theorem addChild_new {V : Type} (h : Heap V) (trie : Nat) (chr : Nat) (ht : trie < h.length) :
    deref (addChild h trie chr) h.length = ⟨chr, [], some trie, false, none⟩ := by
  have hne : trie ≠ h.length := Nat.ne_of_lt ht
  simp only [addChild, NewTrie]
  rw [deref_set_ne _ _ _ _ hne, deref_append_length]

theorem addChild_self {V : Type} (h : Heap V) (trie : Nat) (chr : Nat) (ht : trie < h.length) :
    deref (addChild h trie chr) trie =
      { deref h trie with Children := mapSet (deref h trie).Children chr h.length } := by
  simp only [addChild, NewTrie]
  rw [deref_set_eq _ _ _ (by simp; omega), deref_append_lt _ _ _ ht]

theorem addChild_other {V : Type} (h : Heap V) (trie : Nat) (chr : Nat) (b : Nat)
    (hb : b ≠ trie) (hb2 : b ≠ h.length) : deref (addChild h trie chr) b = deref h b := by
  simp only [addChild, NewTrie]
  rw [deref_set_ne _ _ _ _ (Ne.symm hb)]
  rcases Nat.lt_or_ge b h.length with hlt | hge
  · exact deref_append_lt _ _ _ hlt
  · rw [deref_of_ge h b hge, deref_of_ge _ b (by simp; omega)]

theorem markTerminal_length {V : Type} (h : Heap V) (trie : Nat) (val : Option V) :
    (markTerminal h trie val).length = h.length := by
  simp [markTerminal]

theorem markTerminal_self {V : Type} (h : Heap V) (trie : Nat) (val : Option V)
    (ht : trie < h.length) :
    deref (markTerminal h trie val) trie = { deref h trie with Terminal := true, Value := val } := by
  simp only [markTerminal]
  rw [deref_set_eq _ _ _ ht]

theorem markTerminal_other {V : Type} (h : Heap V) (trie : Nat) (val : Option V) (b : Nat)
    (hb : b ≠ trie) : deref (markTerminal h trie val) b = deref h b := by
  simp only [markTerminal]
  rw [deref_set_ne _ _ _ _ (Ne.symm hb)]

theorem markTerminal_shape {V : Type} (h : Heap V) (trie : Nat) (val : Option V) (b : Nat) :
    (deref (markTerminal h trie val) b).Children = (deref h b).Children ∧
    (deref (markTerminal h trie val) b).Char = (deref h b).Char ∧
    (deref (markTerminal h trie val) b).Parent = (deref h b).Parent := by
  by_cases hb : b = trie
  · subst hb
    rcases Nat.lt_or_ge b h.length with hlt | hge
    · rw [markTerminal_self h b val hlt]
      exact ⟨rfl, rfl, rfl⟩
    · rw [deref_of_ge h b hge, deref_of_ge _ b (by rw [markTerminal_length]; exact hge)]
      exact ⟨rfl, rfl, rfl⟩
  · rw [markTerminal_other h trie val b hb]
    exact ⟨rfl, rfl, rfl⟩

theorem insertLoop_cons {V : Type} (h : Heap V) (k : Nat) (chr : Nat)
    (rest : List (Nat × Rune)) (trie : Nat) :
    Trie.insertLoop h ((k, chr) :: rest) trie
      = Trie.insertLoop (addChild h trie chr) rest h.length := rfl

theorem Insert_eq {V : Type} (h : Heap V) (trie : Nat) (str : GoString) (val : Option V) :
    Trie.Insert h trie str val =
      markTerminal
        (Trie.insertLoop h (rangeStr (str.drop (Trie.searchLoop h (rangeStr str) 0 trie).1))
          (Trie.searchLoop h (rangeStr str) 0 trie).2).1
        (Trie.insertLoop h (rangeStr (str.drop (Trie.searchLoop h (rangeStr str) 0 trie).1))
          (Trie.searchLoop h (rangeStr str) 0 trie).2).2 val := rfl

/-! ## Well-formedness is kept by `Insert` -/

theorem WF_emptyRoot (V : Type) : WF (emptyRoot V) := by
  refine ⟨by simp [emptyRoot, NewRootTrie, NewTrie], ?_, ?_, ?_, ?_⟩
  · simp [emptyRoot, NewRootTrie, NewTrie, deref, root]
  · intro n k c hm
    rcases Nat.eq_zero_or_pos n with h0 | hpos
    · subst h0
      simp [emptyRoot, NewRootTrie, NewTrie, deref] at hm
    · rw [deref_of_ge _ n (by simp [emptyRoot, NewRootTrie, NewTrie]; omega)] at hm
      simp at hm
  · intro n
    rcases Nat.eq_zero_or_pos n with h0 | hpos
    · subst h0
      simp [emptyRoot, NewRootTrie, NewTrie, deref, mapKeys]
    · rw [deref_of_ge _ n (by simp [emptyRoot, NewRootTrie, NewTrie]; omega)]
      simp [mapKeys]
  · intro n p hp
    rcases Nat.eq_zero_or_pos n with h0 | hpos
    · subst h0
      simp [emptyRoot, NewRootTrie, NewTrie, deref] at hp
    · rw [deref_of_ge _ n (by simp [emptyRoot, NewRootTrie, NewTrie]; omega)] at hp
      simp at hp

theorem WF_addChild {V : Type} (h : Heap V) (trie : Nat) (chr : Nat) (hw : WF h)
    (ht : trie < h.length) : WF (addChild h trie chr) := by
  have hlen := addChild_length h trie chr
  have hne : trie ≠ h.length := Nat.ne_of_lt ht
  refine ⟨by omega, ?_, ?_, ?_, ?_⟩
  · by_cases hr : root = trie
    · rw [hr, addChild_self h trie chr ht]
      simpa [hr] using hw.rootParent
    · rw [addChild_other h trie chr root hr (by have := hw.nonempty; simp [root]; omega)]
      exact hw.rootParent
  · intro n k c hm
    by_cases hn : n = trie
    · subst hn
      rw [addChild_self h n chr ht] at hm
      rcases mem_mapSet _ _ _ _ _ hm with ⟨hk, hc⟩ | hold
      · subst hk
        subst hc
        rw [addChild_new h n k ht]
        exact ⟨ht, by omega, rfl, rfl⟩
      · obtain ⟨h1, h2, h3, h4⟩ := hw.child n k c hold
        rw [addChild_other h n chr c (by omega) (by omega)]
        exact ⟨h1, by omega, h3, h4⟩
    · by_cases hn2 : n = h.length
      · subst hn2
        rw [addChild_new h trie chr ht] at hm
        simp at hm
      · rw [addChild_other h trie chr n hn hn2] at hm
        obtain ⟨h1, h2, h3, h4⟩ := hw.child n k c hm
        by_cases hc : c = trie
        · subst hc
          rw [addChild_self h c chr ht]
          exact ⟨h1, by omega, h3, h4⟩
        · rw [addChild_other h trie chr c hc (by omega)]
          exact ⟨h1, by omega, h3, h4⟩
  · intro n
    by_cases hn : n = trie
    · subst hn
      rw [addChild_self h n chr ht]
      exact mapKeys_mapSet_nodup _ _ _ (hw.keys n)
    · by_cases hn2 : n = h.length
      · subst hn2
        rw [addChild_new h trie chr ht]
        simp [mapKeys]
      · rw [addChild_other h trie chr n hn hn2]
        exact hw.keys n
  · intro n p hp
    by_cases hn : n = trie
    · subst hn
      rw [addChild_self h n chr ht] at hp
      exact hw.parent n p hp
    · by_cases hn2 : n = h.length
      · subst hn2
        rw [addChild_new h trie chr ht] at hp
        simp at hp
        subst hp
        exact ht
      · rw [addChild_other h trie chr n hn hn2] at hp
        exact hw.parent n p hp

theorem WF_markTerminal {V : Type} (h : Heap V) (trie : Nat) (val : Option V) (hw : WF h) :
    WF (markTerminal h trie val) := by
  have hs := markTerminal_shape h trie val
  refine ⟨by rw [markTerminal_length]; exact hw.nonempty, ?_, ?_, ?_, ?_⟩
  · rw [(hs root).2.2]
    exact hw.rootParent
  · intro n k c hm
    rw [(hs n).1] at hm
    obtain ⟨h1, h2, h3, h4⟩ := hw.child n k c hm
    rw [markTerminal_length, (hs c).2.1, (hs c).2.2]
    exact ⟨h1, h2, h3, h4⟩
  · intro n
    rw [(hs n).1]
    exact hw.keys n
  · intro n p hp
    rw [(hs n).2.2] at hp
    exact hw.parent n p hp

theorem insertLoop_spec {V : Type} (l : List (Nat × Rune)) :
    ∀ (h : Heap V) (trie : Nat), WF h → trie < h.length →
      WF (Trie.insertLoop h l trie).1 ∧
      (Trie.insertLoop h l trie).1.length = h.length + l.length ∧
      (Trie.insertLoop h l trie).2 < (Trie.insertLoop h l trie).1.length ∧
      (l ≠ [] → (Trie.insertLoop h l trie).2 = h.length + l.length - 1) ∧
      (l = [] → (Trie.insertLoop h l trie).2 = trie) := by
  induction l with
  | nil =>
    intro h trie hw ht
    simp [Trie.insertLoop, hw, ht]
  | cons x rest ih =>
    intro h trie hw ht
    obtain ⟨k, chr⟩ := x
    rw [insertLoop_cons]
    have hw2 := WF_addChild h trie chr hw ht
    have hl2 := addChild_length h trie chr
    obtain ⟨i1, i2, i3, i4, i5⟩ := ih (addChild h trie chr) h.length hw2 (by omega)
    refine ⟨i1, by rw [i2, hl2]; simp; omega, i3, ?_, by simp⟩
    intro _
    by_cases hr : rest = []
    · rw [i5 hr]
      simp [hr]
    · rw [i4 hr, hl2]
      simp

theorem searchLoop_lt {V : Type} (h : Heap V) (hw : WF h) (l : List (Nat × Rune)) :
    ∀ (i : Nat) (trie : Nat), trie < h.length → (Trie.searchLoop h l i trie).2 < h.length := by
  induction l with
  | nil =>
    intro i trie ht
    simpa [Trie.searchLoop] using ht
  | cons x rest ih =>
    intro i trie ht
    obtain ⟨k, chr⟩ := x
    simp only [Trie.searchLoop]
    cases hg : mapGet (deref h trie).Children chr with
    | none => simpa using ht
    | some next =>
      simp only
      exact ih k next (hw.child trie chr next (mapGet_mem _ _ _ hg)).2.1

theorem WF_Insert {V : Type} (h : Heap V) (hw : WF h) (str : GoString) (val : Option V) :
    WF (Trie.Insert h root str val) := by
  rw [Insert_eq]
  apply WF_markTerminal
  exact (insertLoop_spec _ h _ hw (searchLoop_lt h hw _ 0 root hw.nonempty)).1

theorem WF_insertAll {V : Type} (ops : List (GoString × Option V)) : WF (insertAll ops) := by
  unfold insertAll
  generalize hh : emptyRoot V = h0
  have hw0 : WF h0 := hh ▸ WF_emptyRoot V
  clear hh
  induction ops generalizing h0 with
  | nil => simpa using hw0
  | cons x rest ih =>
    simp only [List.foldl_cons]
    exact ih _ (WF_Insert h0 hw0 x.1 x.2)

/-! ## Paths -/

theorem FindTrie_nil {V : Type} (h : Heap V) (t : Nat) : Trie.FindTrie h t [] = some t := rfl

theorem FindTrie_cons {V : Type} (h : Heap V) (t b : Nat) (rest : GoString) :
    Trie.FindTrie h t (b :: rest) =
      (mapGet (deref h t).Children b).bind fun next => Trie.FindTrie h next rest := by
  simp only [Trie.FindTrie]
  cases mapGet (deref h t).Children b <;> rfl

theorem FindTrie_append {V : Type} (h : Heap V) (a : GoString) :
    ∀ (t : Nat) (b : GoString),
      Trie.FindTrie h t (a ++ b) = (Trie.FindTrie h t a).bind fun n => Trie.FindTrie h n b := by
  induction a with
  | nil =>
    intro t b
    simp [FindTrie_nil]
  | cons x a ih =>
    intro t b
    rw [List.cons_append, FindTrie_cons, FindTrie_cons]
    cases hg : mapGet (deref h t).Children x with
    | none => simp
    | some next => simp [ih next b]

theorem FindTrie_bound {V : Type} (h : Heap V) (hw : WF h) (u : GoString) :
    ∀ (t a : Nat), t < h.length → Trie.FindTrie h t u = some a →
      t ≤ a ∧ a < h.length ∧ (u ≠ [] → t < a) := by
  induction u with
  | nil =>
    intro t a ht hf
    simp [FindTrie_nil] at hf
    subst hf
    simp [ht]
  | cons x u ih =>
    intro t a ht hf
    rw [FindTrie_cons] at hf
    cases hg : mapGet (deref h t).Children x with
    | none => simp [hg] at hf
    | some next =>
      simp [hg] at hf
      obtain ⟨h1, h2, _, _⟩ := hw.child t x next (mapGet_mem _ _ _ hg)
      obtain ⟨i1, i2, _⟩ := ih next a h2 hf
      exact ⟨by omega, i2, fun _ => by omega⟩

theorem FindTrie_snoc {V : Type} (h : Heap V) (hw : WF h) (u : GoString) (k t a : Nat)
    (hf : Trie.FindTrie h t (u ++ [k]) = some a) :
    ∃ p : Nat, Trie.FindTrie h t u = some p ∧ (k, a) ∈ (deref h p).Children ∧
      (deref h a).Char = k ∧ (deref h a).Parent = some p := by
  rw [FindTrie_append] at hf
  cases hp : Trie.FindTrie h t u with
  | none => simp [hp] at hf
  | some p =>
    rw [hp, Option.some_bind, FindTrie_cons] at hf
    cases hg : mapGet (deref h p).Children k with
    | none => simp [hg] at hf
    | some next =>
      rw [hg, Option.some_bind, FindTrie_nil] at hf
      have hn : next = a := Option.some.inj hf
      subst hn
      have hm := mapGet_mem _ _ _ hg
      obtain ⟨_, _, h3, h4⟩ := hw.child p k next hm
      exact ⟨p, rfl, hm, h3, h4⟩

theorem FindTrie_inj {V : Type} (h : Heap V) (hw : WF h) (t : Nat) (ht : t < h.length)
    (u1 : GoString) :
    ∀ (u2 : GoString) (a : Nat), Trie.FindTrie h t u1 = some a →
      Trie.FindTrie h t u2 = some a → u1 = u2 := by
  induction u1 using List.reverseRecOn with
  | nil =>
    intro u2 a h1 h2
    simp [FindTrie_nil] at h1
    subst h1
    by_contra hne
    have := (FindTrie_bound h hw u2 t t ht h2).2.2 (fun h0 => hne h0.symm)
    omega
  | append_singleton u1 k1 ih =>
    intro u2 a h1 h2
    obtain ⟨p1, hp1, _, hc1, hpar1⟩ := FindTrie_snoc h hw u1 k1 t a h1
    have hlt : t < a := by
      have := (FindTrie_bound h hw (u1 ++ [k1]) t a ht h1).2.2 (by simp)
      exact this
    rcases List.eq_nil_or_concat u2 with hnil | ⟨u2', k2, hu2⟩
    · subst hnil
      simp [FindTrie_nil] at h2
      omega
    · subst hu2
      rw [List.concat_eq_append] at h2 ⊢
      obtain ⟨p2, hp2, _, hc2, hpar2⟩ := FindTrie_snoc h hw u2' k2 t a h2
      have hk : k1 = k2 := by rw [← hc1, ← hc2]
      have hp : p1 = p2 := by
        rw [hpar1] at hpar2
        exact Option.some.inj hpar2
      subst hk
      subst hp
      rw [ih u2' p1 hp1 hp2]

theorem FindTrie_frame {V : Type} (h g : Heap V) (hw : WF h) (a : Nat)
    (hsame : ∀ x : Nat, x ≠ a → x < h.length → (deref g x).Children = (deref h x).Children)
    (u : GoString) :
    ∀ t : Nat, t < h.length →
      (∀ q w : GoString, u = q ++ w → w ≠ [] → Trie.FindTrie h t q ≠ some a) →
      Trie.FindTrie g t u = Trie.FindTrie h t u := by
  induction u with
  | nil =>
    intro t _ _
    rfl
  | cons x u ih =>
    intro t ht hq
    have hta : t ≠ a := by
      intro heq
      apply hq [] (x :: u) rfl (by simp)
      rw [FindTrie_nil, heq]
    rw [FindTrie_cons, FindTrie_cons, hsame t hta ht]
    cases hg : mapGet (deref h t).Children x with
    | none => rfl
    | some next =>
      simp only [Option.some_bind]
      apply ih next (hw.child t x next (mapGet_mem _ _ _ hg)).2.1
      intro q w huq hwne hfq
      apply hq (x :: q) w (by rw [huq]; rfl) hwne
      rw [FindTrie_cons, hg]
      exact hfq

theorem FindTrie_congr {V : Type} (h g : Heap V)
    (hsame : ∀ x : Nat, (deref g x).Children = (deref h x).Children) (u : GoString) :
    ∀ t : Nat, Trie.FindTrie g t u = Trie.FindTrie h t u := by
  induction u with
  | nil =>
    intro t
    rfl
  | cons x u ih =>
    intro t
    rw [FindTrie_cons, FindTrie_cons, hsame t]
    cases hg : mapGet (deref h t).Children x with
    | none => rfl
    | some next => simp [ih next]

/-! ## The `range` loop -/

theorem rangeAux_ascii (s : GoString) :
    ∀ fuel pos : Nat, isASCII s → s.length ≤ fuel → rangeAux fuel pos s = s.enumFrom pos := by
  induction s with
  | nil =>
    intro fuel pos _ _
    cases fuel <;> simp [rangeAux]
  | cons b s ih =>
    intro fuel pos ha hl
    cases fuel with
    | zero => simp at hl
    | succ fuel =>
      have hb : b < 0x80 := ha b (List.mem_cons_self _ _)
      have hs : isASCII s := fun x hx => ha x (List.mem_cons_of_mem _ hx)
      simp only [rangeAux, decodeStep, hb, if_true, List.drop_succ_cons, List.drop_zero,
        List.enumFrom_cons]
      rw [ih fuel (pos + 1) hs (by simpa using hl)]

theorem rangeStr_ascii (s : GoString) (ha : isASCII s) : rangeStr s = s.enumFrom 0 :=
  rangeAux_ascii s s.length 0 ha (Nat.le_refl _)

theorem rangeAux_index (fuel : Nat) :
    ∀ (pos : Nat) (s : GoString) (k r : Nat), (k, r) ∈ rangeAux fuel pos s →
      pos ≤ k ∧ k < pos + s.length := by
  induction fuel with
  | zero =>
    intro pos s k r hm
    simp [rangeAux] at hm
  | succ fuel ih =>
    intro pos s k r hm
    cases s with
    | nil => simp [rangeAux] at hm
    | cons b rest =>
      simp only [rangeAux, List.mem_cons] at hm
      rcases hm with heq | hin
      · have hk : k = pos := (Prod.mk.inj heq).1
        subst hk
        simp
      · have h2 := ih _ _ k r hin
        have h3 : ((b :: rest).drop (decodeStep (b :: rest)).2).length
            = (b :: rest).length - (decodeStep (b :: rest)).2 := List.length_drop _ _
        rw [h3] at h2
        simp only [List.length_cons] at h2 ⊢
        omega

theorem rangeStr_ne_nil (s : GoString) (hs : s ≠ []) : rangeStr s ≠ [] := by
  cases s with
  | nil => exact absurd rfl hs
  | cons b rest => simp [rangeStr, rangeAux]

theorem searchLoop_index {V : Type} (h : Heap V) (l : List (Nat × Rune)) :
    ∀ (i t : Nat), (Trie.searchLoop h l i t).1 = i ∨
      ∃ r : Nat, ((Trie.searchLoop h l i t).1, r) ∈ l := by
  induction l with
  | nil =>
    intro i t
    exact Or.inl rfl
  | cons x rest ih =>
    intro i t
    obtain ⟨k, chr⟩ := x
    simp only [Trie.searchLoop]
    cases hg : mapGet (deref h t).Children chr with
    | none => exact Or.inr ⟨chr, by simp⟩
    | some next =>
      simp only
      rcases ih k next with h1 | ⟨r, h1⟩
      · exact Or.inr ⟨chr, by rw [h1]; simp⟩
      · exact Or.inr ⟨r, List.mem_cons_of_mem _ h1⟩

theorem searchLoop_index_bound {V : Type} (h : Heap V) (str : GoString) (t : Nat) :
    (Trie.searchLoop h (rangeStr str) 0 t).1 ≤ str.length ∧
    (str ≠ [] → (Trie.searchLoop h (rangeStr str) 0 t).1 < str.length) := by
  rcases searchLoop_index h (rangeStr str) 0 t with h1 | ⟨r, h1⟩
  · rw [h1]
    refine ⟨Nat.zero_le _, fun hne => ?_⟩
    exact List.length_pos.mpr hne
  · have h2 := rangeAux_index _ _ _ _ _ h1
    exact ⟨by omega, fun _ => by omega⟩

theorem searchLoop_found {V : Type} (h : Heap V) (s : GoString) :
    ∀ (pos i t a : Nat), Trie.FindTrie h t s = some a →
      Trie.searchLoop h (s.enumFrom pos) i t = (if s = [] then i else pos + s.length - 1, a) := by
  induction s with
  | nil =>
    intro pos i t a hf
    rw [FindTrie_nil] at hf
    simp [Trie.searchLoop, Option.some.inj hf]
  | cons x s ih =>
    intro pos i t a hf
    rw [FindTrie_cons] at hf
    cases hg : mapGet (deref h t).Children x with
    | none => simp [hg] at hf
    | some next =>
      rw [hg, Option.some_bind] at hf
      simp only [List.enumFrom_cons, Trie.searchLoop, hg]
      rw [ih (pos + 1) pos next a hf]
      by_cases hs : s = []
      · simp [hs]
      · simp [hs]

theorem searchLoop_missing {V : Type} (h : Heap V) (s : GoString) :
    ∀ (pos i t : Nat), Trie.FindTrie h t s = none →
      ∃ (p : GoString) (c : Nat) (r : GoString) (b : Nat), s = p ++ c :: r ∧
        Trie.FindTrie h t p = some b ∧ mapGet (deref h b).Children c = none ∧
        Trie.searchLoop h (s.enumFrom pos) i t = (pos + p.length, b) := by
  induction s with
  | nil =>
    intro pos i t hf
    simp [FindTrie_nil] at hf
  | cons x s ih =>
    intro pos i t hf
    rw [FindTrie_cons] at hf
    cases hg : mapGet (deref h t).Children x with
    | none =>
      exact ⟨[], x, s, t, rfl, rfl, hg, by simp [Trie.searchLoop, hg]⟩
    | some next =>
      rw [hg, Option.some_bind] at hf
      obtain ⟨p, c, r, b, h1, h2, h3, h4⟩ := ih (pos + 1) pos next hf
      refine ⟨x :: p, c, r, b, by rw [h1]; rfl, ?_, h3, ?_⟩
      · rw [FindTrie_cons, hg, Option.some_bind, h2]
      · simp only [List.enumFrom_cons, Trie.searchLoop, hg]
        rw [h4]
        simp
        omega

/-! ## What the second loop of `Insert` builds -/

theorem insertLoop_frame {V : Type} (l : List (Nat × Rune)) :
    ∀ (h : Heap V) (b : Nat), WF h → b < h.length →
      (∀ x : Nat, x < h.length → x ≠ b →
        deref (Trie.insertLoop h l b).1 x = deref h x) ∧
      ((deref (Trie.insertLoop h l b).1 b).Char = (deref h b).Char ∧
        (deref (Trie.insertLoop h l b).1 b).Parent = (deref h b).Parent ∧
        (deref (Trie.insertLoop h l b).1 b).Terminal = (deref h b).Terminal ∧
        (deref (Trie.insertLoop h l b).1 b).Value = (deref h b).Value) ∧
      (l = [] → (deref (Trie.insertLoop h l b).1 b).Children = (deref h b).Children) ∧
      (∀ (k c : Nat) (rest : List (Nat × Rune)), l = (k, c) :: rest →
        (deref (Trie.insertLoop h l b).1 b).Children
          = mapSet (deref h b).Children c h.length) ∧
      (∀ x : Nat, h.length ≤ x →
        (deref (Trie.insertLoop h l b).1 x).Terminal = false ∧
        (deref (Trie.insertLoop h l b).1 x).Value = none) := by
  induction l with
  | nil =>
    intro h b _ _
    refine ⟨fun _ _ _ => rfl, ⟨rfl, rfl, rfl, rfl⟩, fun _ => rfl, ?_, ?_⟩
    · intro k c rest hl
      simp at hl
    · intro x hx
      simp only [Trie.insertLoop]
      rw [deref_of_ge h x hx]
      exact ⟨rfl, rfl⟩
  | cons y rest ih =>
    intro h b hw hb
    obtain ⟨k, c⟩ := y
    rw [insertLoop_cons]
    have hw2 := WF_addChild h b c hw hb
    have hl2 := addChild_length h b c
    obtain ⟨i1, i2, _, _, i5⟩ := ih (addChild h b c) h.length hw2 (by omega)
    have hbb : deref (Trie.insertLoop (addChild h b c) rest h.length).1 b
        = deref (addChild h b c) b := i1 b (by omega) (by omega)
    refine ⟨?_, ?_, ?_, ?_, ?_⟩
    · intro x hx hxb
      rw [i1 x (by omega) (by omega), addChild_other h b c x hxb (by omega)]
    · rw [hbb, addChild_self h b c hb]
      exact ⟨rfl, rfl, rfl, rfl⟩
    · intro hl
      simp at hl
    · intro k2 c2 rest2 hl
      have hc : c = c2 := by
        have := (List.cons.inj hl).1
        exact (Prod.mk.inj this).2
      subst hc
      rw [hbb, addChild_self h b c hb]
    · intro x hx
      rcases Nat.eq_or_lt_of_le hx with heq | hlt
      · subst heq
        rw [i2.2.2.1, i2.2.2.2, addChild_new h b c hb]
        exact ⟨rfl, rfl⟩
      · exact i5 x (by omega)

theorem insertLoop_chain {V : Type} (l : List (Nat × Rune)) :
    ∀ (h : Heap V) (b : Nat), WF h → b < h.length → l ≠ [] → ∀ w : GoString,
      (∀ z : GoString, l.tail.map Prod.snd = w ++ z →
        Trie.FindTrie (Trie.insertLoop h l b).1 h.length w = some (h.length + w.length)) ∧
      ((¬ ∃ z : GoString, l.tail.map Prod.snd = w ++ z) →
        Trie.FindTrie (Trie.insertLoop h l b).1 h.length w = none) := by
  induction l with
  | nil =>
    intro h b _ _ hne
    exact absurd rfl hne
  | cons y rest ih =>
    intro h b hw hb _ w
    obtain ⟨k, c⟩ := y
    rw [insertLoop_cons]
    have hw2 := WF_addChild h b c hw hb
    have hl2 := addChild_length h b c
    obtain ⟨_, f2, f3, f4, _⟩ := insertLoop_frame rest (addChild h b c) h.length hw2 (by omega)
    have hnew := addChild_new h b c hb
    simp only [List.tail_cons]
    cases w with
    | nil =>
      refine ⟨fun _ _ => by simp [FindTrie_nil], fun hno => ?_⟩
      exact absurd ⟨rest.map Prod.snd, by simp⟩ hno
    | cons d w =>
      rw [FindTrie_cons]
      cases rest with
      | nil =>
        rw [f3 rfl, hnew]
        simp [mapGet]
      | cons y2 rest2 =>
        obtain ⟨k2, c2⟩ := y2
        rw [f4 k2 c2 rest2 rfl, hnew]
        have ih2 := ih (addChild h b c) h.length hw2 (by omega) (by simp) w
        rw [insertLoop_cons] at ih2 ⊢
        simp only [List.tail_cons, hl2] at ih2
        by_cases hd : c2 = d
        · subst hd
          simp only [mapSet, mapGet, if_true, Option.some_bind, hl2, List.map_cons,
            List.cons_append, List.cons.injEq, true_and, List.length_cons]
          refine ⟨fun z hz => ?_, fun hno => ?_⟩
          · rw [ih2.1 z hz]
            congr 1
            omega
          · exact ih2.2 hno
        · simp only [mapSet, mapGet, hd, if_false, Option.none_bind, List.map_cons,
            List.cons_append, List.cons.injEq, false_and, exists_false, not_false_eq_true,
            implies_true, and_true]
          intro z hz
          exact hz.elim

/-! ## The effect of `Insert` on lookups -/

theorem Insert_eq_graft {V : Type} (h : Heap V) (trie : Nat) (str : GoString) (val : Option V) :
    Trie.Insert h trie str val =
      graft h (Trie.searchLoop h (rangeStr str) 0 trie).2
        (rangeStr (str.drop (Trie.searchLoop h (rangeStr str) 0 trie).1)) val := rfl

theorem graft_children {V : Type} (h : Heap V) (b : Nat) (l : List (Nat × Rune))
    (val : Option V) (x : Nat) :
    (deref (graft h b l val) x).Children = (deref (Trie.insertLoop h l b).1 x).Children :=
  (markTerminal_shape _ _ val x).1

theorem graft_length {V : Type} (h : Heap V) (hw : WF h) (b : Nat) (hb : b < h.length)
    (l : List (Nat × Rune)) (val : Option V) :
    (graft h b l val).length = h.length + l.length := by
  simp only [graft]
  rw [markTerminal_length]
  exact (insertLoop_spec l h b hw hb).2.1

theorem graft_flags {V : Type} (h : Heap V) (hw : WF h) (b : Nat) (hb : b < h.length)
    (l : List (Nat × Rune)) (hl : l ≠ []) (val : Option V) :
    (∀ x : Nat, x < h.length →
      (deref (graft h b l val) x).Terminal = (deref h x).Terminal ∧
      (deref (graft h b l val) x).Value = (deref h x).Value) ∧
    ((deref (graft h b l val) (h.length + l.length - 1)).Terminal = true ∧
      (deref (graft h b l val) (h.length + l.length - 1)).Value = val) ∧
    (∀ x : Nat, h.length ≤ x → x ≠ h.length + l.length - 1 →
      (deref (graft h b l val) x).Terminal = false) := by
  obtain ⟨s1, s2, s3, s4, _⟩ := insertLoop_spec l h b hw hb
  obtain ⟨f1, f2, _, _, f5⟩ := insertLoop_frame l h b hw hb
  have hres := s4 hl
  have hpos : 0 < l.length := List.length_pos.mpr hl
  simp only [graft]
  rw [hres]
  refine ⟨?_, ?_, ?_⟩
  · intro x hx
    rw [markTerminal_other _ _ val x (by omega)]
    by_cases hxb : x = b
    · subst hxb
      exact ⟨f2.2.2.1, f2.2.2.2⟩
    · rw [f1 x hx hxb]
      exact ⟨rfl, rfl⟩
  · rw [markTerminal_self _ _ val (by rw [s2]; omega)]
    exact ⟨rfl, rfl⟩
  · intro x hx hne
    rw [markTerminal_other _ _ val x hne]
    exact (f5 x hx).1

theorem graft_old {V : Type} (h : Heap V) (hw : WF h) (p : GoString) (b : Nat)
    (hp : Trie.FindTrie h root p = some b) (k c : Nat) (rest : List (Nat × Rune))
    (val : Option V) (u : GoString) (hu : ¬ ∃ w : GoString, u = p ++ c :: w) :
    Trie.FindTrie (graft h b ((k, c) :: rest) val) root u = Trie.FindTrie h root u := by
  have hr : root < h.length := hw.nonempty
  have hb : b < h.length := (FindTrie_bound h hw p root b hr hp).2.1
  obtain ⟨f1, _, _, f4, _⟩ := insertLoop_frame ((k, c) :: rest) h b hw hb
  rw [FindTrie_congr _ _ (graft_children h b ((k, c) :: rest) val) u root]
  have hsame : ∀ x : Nat, x ≠ b → x < h.length →
      (deref (Trie.insertLoop h ((k, c) :: rest) b).1 x).Children = (deref h x).Children := by
    intro x hxb hx
    rw [f1 x hx hxb]
  have A1 : ∀ u2 : GoString, (∀ q w : GoString, u2 = q ++ w → w ≠ [] → q ≠ p) →
      Trie.FindTrie (Trie.insertLoop h ((k, c) :: rest) b).1 root u2 = Trie.FindTrie h root u2 := by
    intro u2 hq
    apply FindTrie_frame h _ hw b hsame u2 root hr
    intro q w huq hwne hfq
    exact hq q w huq hwne (FindTrie_inj h hw root hr q p b hfq hp)
  by_cases hex : ∃ (d : Nat) (w : GoString), u = p ++ d :: w
  · obtain ⟨d, w, hdw⟩ := hex
    have hdc : c ≠ d := by
      intro hcd
      exact hu ⟨w, by rw [hdw, hcd]⟩
    have A2 : Trie.FindTrie (Trie.insertLoop h ((k, c) :: rest) b).1 root p = some b := by
      rw [A1 p, hp]
      intro q w2 hpq hw2 hqp
      rw [hqp] at hpq
      have := congrArg List.length hpq
      simp at this
      exact hw2 this
    rw [hdw, FindTrie_append, FindTrie_append, A2, hp, Option.some_bind, Option.some_bind,
      FindTrie_cons, FindTrie_cons, f4 k c rest rfl, mapGet_mapSet_ne _ _ _ _ hdc]
    cases hg : mapGet (deref h b).Children d with
    | none => rfl
    | some next =>
      simp only [Option.some_bind]
      obtain ⟨h1, h2, _, _⟩ := hw.child b d next (mapGet_mem _ _ _ hg)
      apply FindTrie_frame h _ hw b hsame w next h2
      intro q w2 _ _ hfq
      have := (FindTrie_bound h hw q next b h2 hfq).1
      omega
  · apply A1
    intro q w huq hwne hqp
    cases w with
    | nil => exact hwne rfl
    | cons d w => exact hex ⟨d, w, by rw [huq, hqp]⟩

theorem graft_new {V : Type} (h : Heap V) (hw : WF h) (p : GoString) (b : Nat)
    (hp : Trie.FindTrie h root p = some b) (k c : Nat) (rest : List (Nat × Rune))
    (val : Option V) (w : GoString) :
    (∀ z : GoString, rest.map Prod.snd = w ++ z →
      Trie.FindTrie (graft h b ((k, c) :: rest) val) root (p ++ c :: w)
        = some (h.length + w.length)) ∧
    ((¬ ∃ z : GoString, rest.map Prod.snd = w ++ z) →
      Trie.FindTrie (graft h b ((k, c) :: rest) val) root (p ++ c :: w) = none) := by
  have hr : root < h.length := hw.nonempty
  have hb : b < h.length := (FindTrie_bound h hw p root b hr hp).2.1
  obtain ⟨_, _, _, f4, _⟩ := insertLoop_frame ((k, c) :: rest) h b hw hb
  have hold := graft_old h hw p b hp k c rest val p (by
    rintro ⟨w2, hw2⟩
    have := congrArg List.length hw2
    simp at this)
  have hch := insertLoop_chain ((k, c) :: rest) h b hw hb (by simp) w
  simp only [List.tail_cons] at hch
  have key : Trie.FindTrie (graft h b ((k, c) :: rest) val) root (p ++ c :: w)
      = Trie.FindTrie (Trie.insertLoop h ((k, c) :: rest) b).1 h.length w := by
    rw [FindTrie_append, hold, hp, Option.some_bind, FindTrie_cons, graft_children,
      f4 k c rest rfl, mapGet_mapSet_eq, Option.some_bind]
    exact FindTrie_congr _ _ (graft_children h b ((k, c) :: rest) val) w h.length
  rw [key]
  exact hch

theorem Find_none {V : Type} (h : Heap V) (t : Nat) (u : GoString)
    (hf : Trie.FindTrie h t u = none) : Trie.Find h t u = (none, false) := by
  simp [Trie.Find, hf]

theorem Find_some {V : Type} (h : Heap V) (t : Nat) (u : GoString) (n : Nat)
    (hf : Trie.FindTrie h t u = some n) :
    Trie.Find h t u =
      if (deref h n).Terminal then ((deref h n).Value, true) else (none, false) := by
  simp [Trie.Find, hf]

theorem Insert_nil {V : Type} (h : Heap V) (val : Option V) :
    Trie.Insert h root [] val = markTerminal h root val := rfl

theorem enumFrom_map_snd (r : GoString) : ∀ n : Nat, (r.enumFrom n).map Prod.snd = r := by
  induction r with
  | nil => intro n; rfl
  | cons x r ih =>
    intro n
    simp [List.enumFrom_cons, ih (n + 1)]

theorem Insert_existing {V : Type} (h : Heap V) (s : GoString) (c : Nat) (a : Nat)
    (val : Option V) (ha : isASCII (s ++ [c]))
    (hf : Trie.FindTrie h root (s ++ [c]) = some a) :
    Trie.Insert h root (s ++ [c]) val = graft h a [(0, c)] val := by
  have hc : c < 0x80 := ha c (by simp)
  rw [Insert_eq_graft, rangeStr_ascii _ ha, searchLoop_found h (s ++ [c]) 0 0 root a hf]
  have hne : s ++ [c] ≠ [] := by simp
  simp only [hne, if_false, List.length_append, List.length_singleton, Nat.zero_add,
    Nat.add_sub_cancel, List.drop_left]
  have : rangeStr [c] = [(0, c)] := by
    simp [rangeStr, rangeAux, decodeStep, hc]
  rw [this]

theorem Insert_missing {V : Type} (h : Heap V) (str : GoString) (val : Option V)
    (ha : isASCII str) (hf : Trie.FindTrie h root str = none) :
    ∃ (p : GoString) (c : Nat) (r : GoString) (b : Nat), str = p ++ c :: r ∧
      Trie.FindTrie h root p = some b ∧ mapGet (deref h b).Children c = none ∧
      Trie.Insert h root str val = graft h b ((0, c) :: r.enumFrom 1) val := by
  obtain ⟨p, c, r, b, h1, h2, h3, h4⟩ := searchLoop_missing h str 0 0 root hf
  refine ⟨p, c, r, b, h1, h2, h3, ?_⟩
  rw [Insert_eq_graft, rangeStr_ascii _ ha, h4]
  have hd : str.drop (0 + p.length) = c :: r := by
    rw [h1]
    simp
  have ha2 : isASCII (c :: r) := by
    intro x hx
    apply ha x
    rw [h1]
    exact List.mem_append_right _ hx
  simp only [hd]
  rw [rangeStr_ascii _ ha2]
  rfl

theorem Insert_fresh {V : Type} (h : Heap V) (hw : WF h) (str : GoString) (val : Option V)
    (ha : isASCII str) (hf : Trie.FindTrie h root str = none) :
    Trie.Find (Trie.Insert h root str val) root str = (val, true) ∧
    (∀ u : GoString, u ≠ str →
      Trie.Find (Trie.Insert h root str val) root u = Trie.Find h root u) ∧
    (∀ (u : GoString) (a : Nat), Trie.FindTrie (Trie.Insert h root str val) root u = some a →
      (∃ a2 : Nat, Trie.FindTrie h root u = some a2) ∨ ∃ z : GoString, str = u ++ z) := by
  obtain ⟨p, c, r, b, h1, h2, h3, h4⟩ := Insert_missing h str val ha hf
  have hr : root < h.length := hw.nonempty
  have hb : b < h.length := (FindTrie_bound h hw p root b hr h2).2.1
  have hkeys : (r.enumFrom 1).map Prod.snd = r := enumFrom_map_snd r 1
  have hlen : ((0, c) :: r.enumFrom 1).length = r.length + 1 := by simp
  obtain ⟨g1, g2, g3⟩ := graft_flags h hw b hb ((0, c) :: r.enumFrom 1) (by simp) val
  rw [hlen] at g2 g3
  have hlast : h.length + (r.length + 1) - 1 = h.length + r.length := by omega
  rw [hlast] at g2 g3
  rw [h4]
  refine ⟨?_, ?_, ?_⟩
  · have hn := (graft_new h hw p b h2 0 c (r.enumFrom 1) val r).1 [] (by simp [hkeys])
    rw [h1, Find_some _ _ _ _ hn, g2.1, g2.2]
    rfl
  · intro u hu
    by_cases hex : ∃ w : GoString, u = p ++ c :: w
    · obtain ⟨w, huw⟩ := hex
      have hold : Trie.Find h root u = (none, false) := by
        apply Find_none
        rw [huw, FindTrie_append, h2, Option.some_bind, FindTrie_cons, h3]
        rfl
      rw [hold]
      by_cases hz : ∃ z : GoString, r = w ++ z
      · obtain ⟨z, hz⟩ := hz
        have hn := (graft_new h hw p b h2 0 c (r.enumFrom 1) val w).1 z (by rw [hkeys, hz])
        rw [huw, Find_some _ _ _ _ hn]
        have hzne : z ≠ [] := by
          intro hz0
          apply hu
          rw [huw, h1, hz, hz0]
          simp
        have hzl : 0 < z.length := List.length_pos.mpr hzne
        have hrl : r.length = w.length + z.length := by rw [hz]; simp
        rw [g3 (h.length + w.length) (by omega) (by omega)]
        rfl
      · have hn := (graft_new h hw p b h2 0 c (r.enumFrom 1) val w).2 (by rw [hkeys]; exact hz)
        rw [huw]
        exact Find_none _ _ _ hn
    · have hsame := graft_old h hw p b h2 0 c (r.enumFrom 1) val u hex
      cases hfu : Trie.FindTrie h root u with
      | none =>
        rw [hfu] at hsame
        rw [Find_none _ _ _ hsame, Find_none _ _ _ hfu]
      | some n =>
        rw [hfu] at hsame
        have hn : n < h.length := (FindTrie_bound h hw u root n hr hfu).2.1
        rw [Find_some _ _ _ _ hsame, Find_some _ _ _ _ hfu, (g1 n hn).1, (g1 n hn).2]
  · intro u a hfu
    by_cases hex : ∃ w : GoString, u = p ++ c :: w
    · obtain ⟨w, huw⟩ := hex
      by_cases hz : ∃ z : GoString, r = w ++ z
      · obtain ⟨z, hz⟩ := hz
        exact Or.inr ⟨z, by rw [h1, huw, hz]; simp⟩
      · have hn := (graft_new h hw p b h2 0 c (r.enumFrom 1) val w).2 (by rw [hkeys]; exact hz)
        rw [huw, hn] at hfu
        exact absurd hfu (by simp)
    · rw [graft_old h hw p b h2 0 c (r.enumFrom 1) val u hex] at hfu
      exact Or.inl ⟨a, hfu⟩

theorem graft_single {V : Type} (h : Heap V) (a k c : Nat) (val : Option V) :
    graft h a [(k, c)] val = markTerminal (addChild h a c) h.length val := rfl

theorem Insert_nil_spec {V : Type} (h : Heap V) (hw : WF h) (val : Option V) :
    (∀ (u : GoString) (t : Nat),
      Trie.FindTrie (Trie.Insert h root [] val) t u = Trie.FindTrie h t u) ∧
    Trie.Find (Trie.Insert h root [] val) root [] = (val, true) ∧
    (∀ u : GoString, u ≠ [] →
      Trie.Find (Trie.Insert h root [] val) root u = Trie.Find h root u) := by
  have hr : root < h.length := hw.nonempty
  have hft : ∀ (u : GoString) (t : Nat),
      Trie.FindTrie (Trie.Insert h root [] val) t u = Trie.FindTrie h t u := by
    intro u t
    rw [Insert_nil]
    exact FindTrie_congr _ _ (fun x => (markTerminal_shape h root val x).1) u t
  refine ⟨hft, ?_, ?_⟩
  · rw [Find_some _ _ _ root (by rw [hft]; rfl), Insert_nil, markTerminal_self h root val hr]
    rfl
  · intro u hu
    cases hfu : Trie.FindTrie h root u with
    | none =>
      rw [Find_none _ _ _ hfu, Find_none _ _ _ (by rw [hft]; exact hfu)]
    | some n =>
      have hn : root < n := (FindTrie_bound h hw u root n hr hfu).2.2 hu
      rw [Find_some _ _ _ n hfu, Find_some _ _ _ n (by rw [hft]; exact hfu), Insert_nil,
        markTerminal_other h root val n (Nat.ne_of_gt hn)]

theorem startsWith_iff (s p : GoString) : startsWith s p = true ↔ ∃ z : GoString, s = p ++ z := by
  constructor
  · intro hs
    simp only [startsWith, Bool.and_eq_true, decide_eq_true_eq, beq_iff_eq] at hs
    refine ⟨s.drop p.length, ?_⟩
    conv_lhs => rw [← List.take_append_drop p.length s]
    rw [hs.2]
  · rintro ⟨z, rfl⟩
    simp [startsWith]

/-! ## The claims about lookups and `Insert` -/

/-- C20: `FindTrie` composes over concatenation.  For every heap, every node `t`
and all strings `a` and `b`: when `t.FindTrie(a)` is nil, `t.FindTrie(a + b)` is
nil; when it is the node `n`, `t.FindTrie(a + b)` equals `n.FindTrie(b)`. -/
theorem findTrie_concat {V : Type} (h : Heap V) (t : Addr) (a b : GoString) :
    (Trie.FindTrie h t a = none → Trie.FindTrie h t (a ++ b) = none) ∧
    (∀ n : Addr, Trie.FindTrie h t a = some n →
      Trie.FindTrie h t (a ++ b) = Trie.FindTrie h n b) := by
  constructor
  · intro hn
    rw [FindTrie_append, hn]
    rfl
  · intro n hn
    rw [FindTrie_append, hn]
    rfl

/-- C18: what `Insert` does when the whole path already exists.  In a trie built
from `NewRootTrie()` by `Insert` calls, let `s ++ [c]` be a non-empty ASCII string
whose node `a` exists.  The call `Insert(s ++ [c], v)` allocates exactly one node,
at the fresh address `h.length`; leaves every other old node as it was and the
node `a` at the same path with its `Terminal` flag and `Value` unchanged; stores
the fresh node in `a.Children` under `c`; the fresh node has character `c`, no
children, parent `a`, is terminal and holds `v`.  Afterwards
`Find(s ++ [c] ++ [c])` is `(v, true)` and nothing is found below that path: a
subtree stored there before is gone. -/
theorem insert_existing_path {V : Type} (ops : List (GoString × Option V)) (s : GoString)
    (c : Nat) (a : Addr) (v : Option V) (ha : isASCII (s ++ [c]))
    (hf : Trie.FindTrie (insertAll ops) root (s ++ [c]) = some a) :
    (Trie.Insert (insertAll ops) root (s ++ [c]) v).length = (insertAll ops).length + 1 ∧
    (∀ x : Addr, x < (insertAll ops).length → x ≠ a →
      deref (Trie.Insert (insertAll ops) root (s ++ [c]) v) x = deref (insertAll ops) x) ∧
    Trie.FindTrie (Trie.Insert (insertAll ops) root (s ++ [c]) v) root (s ++ [c]) = some a ∧
    (deref (Trie.Insert (insertAll ops) root (s ++ [c]) v) a).Terminal
      = (deref (insertAll ops) a).Terminal ∧
    (deref (Trie.Insert (insertAll ops) root (s ++ [c]) v) a).Value
      = (deref (insertAll ops) a).Value ∧
    mapGet (deref (Trie.Insert (insertAll ops) root (s ++ [c]) v) a).Children c
      = some (insertAll ops).length ∧
    deref (Trie.Insert (insertAll ops) root (s ++ [c]) v) (insertAll ops).length
      = ⟨c, [], some a, true, v⟩ ∧
    Trie.Find (Trie.Insert (insertAll ops) root (s ++ [c]) v) root (s ++ [c] ++ [c])
      = (v, true) ∧
    (∀ w : GoString, w ≠ [] →
      Trie.FindTrie (Trie.Insert (insertAll ops) root (s ++ [c]) v) root
        (s ++ [c] ++ [c] ++ w) = none) := by
  have hw := WF_insertAll ops
  generalize insertAll ops = h at hw hf ⊢
  have hr : root < h.length := hw.nonempty
  have hb : a < h.length := (FindTrie_bound h hw _ root a hr hf).2.1
  rw [Insert_existing h s c a v ha hf]
  obtain ⟨g1, g2, _⟩ := graft_flags h hw a hb [(0, c)] (by simp) v
  have hnew := graft_new h hw (s ++ [c]) a hf 0 c [] v
  refine ⟨?_, ?_, ?_, (g1 a hb).1, (g1 a hb).2, ?_, ?_, ?_, ?_⟩
  · rw [graft_length h hw a hb]
    rfl
  · intro x hx hxa
    rw [graft_single, markTerminal_other _ _ _ _ (Nat.ne_of_lt hx),
      addChild_other h a c x hxa (Nat.ne_of_lt hx)]
  · rw [graft_old h hw (s ++ [c]) a hf 0 c [] v (s ++ [c]) (by
      rintro ⟨w2, hw2⟩
      have := congrArg List.length hw2
      simp at this), hf]
  · rw [graft_single, (markTerminal_shape _ _ v a).1, addChild_self h a c hb]
    exact mapGet_mapSet_eq _ _ _
  · rw [graft_single, markTerminal_self _ _ v (by rw [addChild_length]; omega),
      addChild_new h a c hb]
  · have hn := (hnew []).1 [] (by simp)
    rw [Find_some _ _ _ _ hn]
    simp only [List.length_nil, Nat.add_zero]
    simp only [List.length_singleton, Nat.add_sub_cancel] at g2
    rw [g2.1, g2.2]
    rfl
  · intro w hwne
    have hn := (hnew w).2 (by
      rintro ⟨z, hz⟩
      cases w with
      | nil => exact hwne rfl
      | cons d w => simp at hz)
    have : s ++ [c] ++ [c] ++ w = s ++ [c] ++ c :: w := by simp
    rw [this]
    exact hn

/-- C18 at a concrete input: in the trie holding `"a"`, the node of `"a"` is at
address 1, and `Insert("a", 2)` makes `Find("aa")` return `(2, true)`. -/
theorem insert_existing_path_witness :
    isASCII ([] ++ [97]) ∧
    Trie.FindTrie (insertAll [([97], (some 1 : Option Nat))]) root ([] ++ [97]) = some 1 ∧
    Trie.Find (Trie.Insert (insertAll [([97], some 1)]) root ([] ++ [97]) (some 2)) root
      ([] ++ [97] ++ [97]) = ((some 2 : Option Nat), true) :=
  ⟨by simp [isASCII], by decide,
    (insert_existing_path [([97], (some 1 : Option Nat))] [] 97 1 (some 2)
      (by simp [isASCII]) (by decide)).2.2.2.2.2.2.2.1⟩

theorem insertAll_snoc {V : Type} (ops : List (GoString × Option V)) (x : GoString × Option V) :
    insertAll (ops ++ [x]) = Trie.Insert (insertAll ops) root x.1 x.2 := by
  simp [insertAll, List.foldl_append]

theorem Insert_old_flags {V : Type} (h : Heap V) (hw : WF h) (str : GoString) (val : Option V)
    (hs : str ≠ []) (x : Nat) (hx : x < h.length) :
    (deref (Trie.Insert h root str val) x).Terminal = (deref h x).Terminal ∧
    (deref (Trie.Insert h root str val) x).Value = (deref h x).Value := by
  rw [Insert_eq_graft]
  have hi := (searchLoop_index_bound h str root).2 hs
  have hd : str.drop (Trie.searchLoop h (rangeStr str) 0 root).1 ≠ [] := by
    intro h0
    have := congrArg List.length h0
    simp at this
    omega
  exact (graft_flags h hw _ (searchLoop_lt h hw _ 0 root hw.nonempty) _
    (rangeStr_ne_nil _ hd) val).1 x hx

theorem pfxFree_inv {V : Type} (ops : List (GoString × Option V)) :
    (∀ sv ∈ ops, isASCII sv.1) →
    ops.Pairwise (fun x y => startsWith x.1 y.1 = false ∧ startsWith y.1 x.1 = false) →
    (∀ (u : GoString) (a : Nat), Trie.FindTrie (insertAll ops) root u = some a →
      u = [] ∨ ∃ sv ∈ ops, ∃ z : GoString, sv.1 = u ++ z) ∧
    (∀ sv ∈ ops, Trie.Find (insertAll ops) root sv.1 = (sv.2, true)) ∧
    (∀ u : GoString, u ∉ ops.map Prod.fst →
      Trie.Find (insertAll ops) root u = (none, false)) := by
  induction ops using List.reverseRecOn with
  | nil =>
    intro _ _
    refine ⟨?_, ?_, ?_⟩
    · intro u a hf
      cases u with
      | nil => exact Or.inl rfl
      | cons b u =>
        rw [FindTrie_cons] at hf
        simp [insertAll, emptyRoot, NewRootTrie, NewTrie, deref, root, mapGet] at hf
    · intro sv hsv
      simp at hsv
    · intro u _
      cases u with
      | nil => rfl
      | cons b u =>
        apply Find_none
        rw [FindTrie_cons]
        simp [insertAll, emptyRoot, NewRootTrie, NewTrie, deref, root, mapGet]
  | append_singleton init x ih =>
    intro hascii hfree
    obtain ⟨S, v⟩ := x
    have hfree2 := List.pairwise_append.mp hfree
    have hascii1 : ∀ sv ∈ init, isASCII sv.1 :=
      fun sv hsv => hascii sv (List.mem_append_left _ hsv)
    have hS : isASCII S := hascii (S, v) (by simp)
    obtain ⟨i1, i2, i3⟩ := ih hascii1 hfree2.1
    have hw := WF_insertAll init
    have hne : ∀ sv ∈ init, sv.1 ≠ S := by
      intro sv hsv heq
      have := (hfree2.2.2 sv hsv (S, v) (by simp)).1
      rw [heq] at this
      have h2 : startsWith S S = true := (startsWith_iff S S).mpr ⟨[], by simp⟩
      rw [h2] at this
      exact absurd this (by simp)
    rw [insertAll_snoc]
    simp only
    have core : Trie.Find (Trie.Insert (insertAll init) root S v) root S = (v, true) ∧
        (∀ u : GoString, u ≠ S →
          Trie.Find (Trie.Insert (insertAll init) root S v) root u
            = Trie.Find (insertAll init) root u) ∧
        (∀ (u : GoString) (a : Nat),
          Trie.FindTrie (Trie.Insert (insertAll init) root S v) root u = some a →
          (∃ a2 : Nat, Trie.FindTrie (insertAll init) root u = some a2) ∨
            ∃ z : GoString, S = u ++ z) := by
      by_cases hS0 : S = []
      · subst hS0
        obtain ⟨n1, n2, n3⟩ := Insert_nil_spec (insertAll init) hw v
        refine ⟨n2, n3, ?_⟩
        intro u a hfu
        rw [n1] at hfu
        exact Or.inl ⟨a, hfu⟩
      · have hnone : Trie.FindTrie (insertAll init) root S = none := by
          cases hfS : Trie.FindTrie (insertAll init) root S with
          | none => rfl
          | some a =>
            rcases i1 S a hfS with h0 | ⟨sv, hsv, z, hz⟩
            · exact absurd h0 hS0
            · have := (hfree2.2.2 sv hsv (S, v) (by simp)).1
              rw [(startsWith_iff sv.1 S).mpr ⟨z, hz⟩] at this
              exact absurd this (by simp)
        exact Insert_fresh (insertAll init) hw S v hS hnone
    obtain ⟨c1, c2, c3⟩ := core
    refine ⟨?_, ?_, ?_⟩
    · intro u a hfu
      rcases c3 u a hfu with ⟨a2, ha2⟩ | ⟨z, hz⟩
      · rcases i1 u a2 ha2 with h0 | ⟨sv, hsv, z, hz⟩
        · exact Or.inl h0
        · exact Or.inr ⟨sv, List.mem_append_left _ hsv, z, hz⟩
      · exact Or.inr ⟨(S, v), by simp, z, hz⟩
    · intro sv hsv
      rcases List.mem_append.mp hsv with hin | hlast
      · rw [c2 sv.1 (hne sv hin)]
        exact i2 sv hin
      · simp at hlast
        subst hlast
        exact c1
    · intro u hu
      simp only [List.map_append, List.map_cons, List.map_nil, List.mem_append,
        List.mem_singleton, not_or] at hu
      rw [c2 u hu.2]
      exact i3 u hu.1

/-- C19: correctness on input where no string starts with another.  Let `ops` be
pairs of ASCII strings and values in which no string starts with another one (so
the strings are pairwise distinct), and `ops2` any ordering of `ops`.  After
`NewRootTrie()` and the `Insert` calls of `ops2` in order, `Find(u)` returns
`(value of u, true)` for every pair of `ops` and `(nil, false)` for every string
that is not a string of `ops`. -/
theorem insertAll_pfxFree_correct {V : Type} (ops ops2 : List (GoString × Option V))
    (hperm : ops2.Perm ops) (hascii : ∀ sv ∈ ops, isASCII sv.1)
    (hfree : ops.Pairwise
      (fun x y => startsWith x.1 y.1 = false ∧ startsWith y.1 x.1 = false)) :
    (∀ sv ∈ ops, Trie.Find (insertAll ops2) root sv.1 = (sv.2, true)) ∧
    (∀ u : GoString, u ∉ ops.map Prod.fst →
      Trie.Find (insertAll ops2) root u = (none, false)) := by
  have hfree2 : ops2.Pairwise
      (fun x y => startsWith x.1 y.1 = false ∧ startsWith y.1 x.1 = false) :=
    (hperm.pairwise_iff (fun {x y} hxy => ⟨hxy.2, hxy.1⟩)).mpr hfree
  have hascii2 : ∀ sv ∈ ops2, isASCII sv.1 := fun sv hsv => hascii sv (hperm.mem_iff.mp hsv)
  obtain ⟨_, i2, i3⟩ := pfxFree_inv ops2 hascii2 hfree2
  refine ⟨fun sv hsv => i2 sv (hperm.mem_iff.mpr hsv), fun u hu => i3 u ?_⟩
  intro hin
  apply hu
  exact (hperm.map Prod.fst).mem_iff.mp hin

/-- C19 at a concrete input: the three words `cat -> 1`, `car -> 2`, `dog -> 3` of
the specification in each of their six orders give `Find("cat") = (1, true)` and
`Find("ca") = (nil, false)`. -/
theorem insertAll_pfxFree_correct_witness :
    (Trie.Find (insertAll [([99, 97, 116], some 1), ([99, 97, 114], some 2), ([100, 111, 103], some 3)])
        root [99, 97, 116] = ((some 1 : Option Nat), true) ∧
      Trie.Find (insertAll [([99, 97, 116], some 1), ([99, 97, 114], some 2), ([100, 111, 103], some 3)])
        root [99, 97] = ((none : Option Nat), false)) ∧
    (Trie.Find (insertAll [([99, 97, 116], some 1), ([100, 111, 103], some 3), ([99, 97, 114], some 2)])
        root [99, 97, 116] = ((some 1 : Option Nat), true) ∧
      Trie.Find (insertAll [([99, 97, 116], some 1), ([100, 111, 103], some 3), ([99, 97, 114], some 2)])
        root [99, 97] = ((none : Option Nat), false)) ∧
    (Trie.Find (insertAll [([99, 97, 114], some 2), ([99, 97, 116], some 1), ([100, 111, 103], some 3)])
        root [99, 97, 116] = ((some 1 : Option Nat), true) ∧
      Trie.Find (insertAll [([99, 97, 114], some 2), ([99, 97, 116], some 1), ([100, 111, 103], some 3)])
        root [99, 97] = ((none : Option Nat), false)) ∧
    (Trie.Find (insertAll [([99, 97, 114], some 2), ([100, 111, 103], some 3), ([99, 97, 116], some 1)])
        root [99, 97, 116] = ((some 1 : Option Nat), true) ∧
      Trie.Find (insertAll [([99, 97, 114], some 2), ([100, 111, 103], some 3), ([99, 97, 116], some 1)])
        root [99, 97] = ((none : Option Nat), false)) ∧
    (Trie.Find (insertAll [([100, 111, 103], some 3), ([99, 97, 116], some 1), ([99, 97, 114], some 2)])
        root [99, 97, 116] = ((some 1 : Option Nat), true) ∧
      Trie.Find (insertAll [([100, 111, 103], some 3), ([99, 97, 116], some 1), ([99, 97, 114], some 2)])
        root [99, 97] = ((none : Option Nat), false)) ∧
    (Trie.Find (insertAll [([100, 111, 103], some 3), ([99, 97, 114], some 2), ([99, 97, 116], some 1)])
        root [99, 97, 116] = ((some 1 : Option Nat), true) ∧
      Trie.Find (insertAll [([100, 111, 103], some 3), ([99, 97, 114], some 2), ([99, 97, 116], some 1)])
        root [99, 97] = ((none : Option Nat), false)) := by
  have key : ∀ ops2 : List (GoString × Option Nat),
      ops2.Perm [([99, 97, 116], some 1), ([99, 97, 114], some 2), ([100, 111, 103], some 3)] →
      Trie.Find (insertAll ops2) root [99, 97, 116] = (some 1, true) ∧
      Trie.Find (insertAll ops2) root [99, 97] = (none, false) := by
    intro ops2 hp
    have hc := insertAll_pfxFree_correct
      [([99, 97, 116], some 1), ([99, 97, 114], some 2), ([100, 111, 103], some 3)] ops2 hp
      (by simp [isASCII]) (by decide)
    exact ⟨hc.1 ([99, 97, 116], some 1) (by simp), hc.2 [99, 97] (by decide)⟩
  exact ⟨key _ (by decide), key _ (by decide), key _ (by decide), key _ (by decide),
    key _ (by decide), key _ (by decide)⟩

theorem root_not_terminal {V : Type} (ops : List (GoString × Option V)) :
    (∀ sv ∈ ops, sv.1 ≠ []) → (deref (insertAll ops) root).Terminal = false := by
  induction ops using List.reverseRecOn with
  | nil =>
    intro _
    rfl
  | append_singleton init x ih =>
    intro hne
    have hw := WF_insertAll init
    rw [insertAll_snoc,
      (Insert_old_flags (insertAll init) hw x.1 x.2 (hne x (by simp)) root hw.nonempty).1]
    exact ih (fun sv hsv => hne sv (List.mem_append_left _ hsv))

/-- C16: insertion of the empty string.  In a trie built from `NewRootTrie()` by
`Insert` calls, `Insert("", v)` allocates no node, makes the root terminal with
value `v`, so that `Find("")` returns `(v, true)`, and leaves `Find(u)` unchanged
for every non-empty `u`.  On `NewRootTrie()`, and on every trie built by `Insert`
calls none of which inserts the empty string, `Find("")` returns `(nil, false)`. -/
theorem insert_empty_string {V : Type} (ops : List (GoString × Option V)) (v : Option V) :
    (Trie.Insert (insertAll ops) root [] v).length = (insertAll ops).length ∧
    (deref (Trie.Insert (insertAll ops) root [] v) root).Terminal = true ∧
    (deref (Trie.Insert (insertAll ops) root [] v) root).Value = v ∧
    Trie.Find (Trie.Insert (insertAll ops) root [] v) root [] = (v, true) ∧
    (∀ u : GoString, u ≠ [] →
      Trie.Find (Trie.Insert (insertAll ops) root [] v) root u
        = Trie.Find (insertAll ops) root u) ∧
    Trie.Find (emptyRoot V) root [] = (none, false) ∧
    ((∀ sv ∈ ops, sv.1 ≠ []) → Trie.Find (insertAll ops) root [] = (none, false)) := by
  have hw := WF_insertAll ops
  obtain ⟨_, n2, n3⟩ := Insert_nil_spec (insertAll ops) hw v
  refine ⟨?_, ?_, ?_, n2, n3, rfl, ?_⟩
  · rw [Insert_nil, markTerminal_length]
  · rw [Insert_nil, markTerminal_self (insertAll ops) root v hw.nonempty]
  · rw [Insert_nil, markTerminal_self (insertAll ops) root v hw.nonempty]
  · intro hne
    rw [Find_some (insertAll ops) root [] root rfl, root_not_terminal ops hne]
    rfl

theorem Desc_bound {V : Type} (h : Heap V) (hw : WF h) (n a : Nat) (hd : Trie.Desc h n a) :
    n ≤ a ∧ (n < h.length → a < h.length) := by
  induction hd with
  | self => exact ⟨Nat.le_refl _, fun hn => hn⟩
  | child _ hm ih =>
    obtain ⟨h1, h2, _, _⟩ := hw.child _ _ _ hm
    exact ⟨by omega, fun _ => h2⟩

/-- C14: the tree invariant holds in every trie built from `NewRootTrie()` by
`Insert` calls.  The root has no parent.  For every node `n` and every entry
`k -> c` of `n.Children`, `c.Char = k` and `c.Parent = n`.  Hence a node is an
entry of at most one children map and under one key only, the root is an entry of
none, and every node of the tree other than the root has a parent that is a node
of the tree and holds it in its `Children` under the node's own character. -/
theorem tree_invariant {V : Type} (ops : List (GoString × Option V)) :
    (deref (insertAll ops) root).Parent = none ∧
    (∀ (n : Addr) (k : Rune) (c : Addr), (k, c) ∈ (deref (insertAll ops) n).Children →
      (deref (insertAll ops) c).Char = k ∧ (deref (insertAll ops) c).Parent = some n) ∧
    (∀ (n n2 : Addr) (k k2 : Rune) (c : Addr),
      (k, c) ∈ (deref (insertAll ops) n).Children →
      (k2, c) ∈ (deref (insertAll ops) n2).Children → n = n2 ∧ k = k2) ∧
    (∀ (n : Addr) (k : Rune), (k, root) ∉ (deref (insertAll ops) n).Children) ∧
    (∀ c : Addr, Trie.Desc (insertAll ops) root c → c ≠ root →
      ∃ p : Addr, (deref (insertAll ops) c).Parent = some p ∧
        Trie.Desc (insertAll ops) root p ∧
        mapGet (deref (insertAll ops) p).Children (deref (insertAll ops) c).Char = some c) := by
  have hw := WF_insertAll ops
  generalize insertAll ops = h at hw ⊢
  refine ⟨hw.rootParent, ?_, ?_, ?_, ?_⟩
  · intro n k c hm
    exact (hw.child n k c hm).2.2
  · intro n n2 k k2 c hm hm2
    obtain ⟨_, _, a3, a4⟩ := hw.child n k c hm
    obtain ⟨_, _, b3, b4⟩ := hw.child n2 k2 c hm2
    rw [a4] at b4
    rw [a3] at b3
    exact ⟨Option.some.inj b4, b3⟩
  · intro n k hm
    have := (hw.child n k root hm).1
    exact Nat.not_lt_zero _ this
  · intro c hd hc
    cases hd with
    | self => exact absurd rfl hc
    | child hp hm =>
      rename_i p k
      obtain ⟨_, _, a3, a4⟩ := hw.child p k c hm
      refine ⟨p, a4, hp, ?_⟩
      rw [a3]
      exact mapGet_of_mem _ _ _ (hw.keys p) hm

/-! ## `Walk` and the preorder list -/

theorem walkChildren_eq {V σ : Type} (h : Heap V) (fn : σ → Addr → Option σ) (fuel : Nat)
    (cs : List (Rune × Addr))
    (hcs : ∀ kc ∈ cs, ∀ s : σ,
      Trie.walkFuel h fn fuel kc.2 s = (Trie.preorder h fuel kc.2).foldlM fn s) :
    ∀ s : σ, cs.foldlM (fun acc kc => Trie.walkFuel h fn fuel kc.2 acc) s
      = ((cs.map fun kc => Trie.preorder h fuel kc.2).flatten).foldlM fn s := by
  induction cs with
  | nil =>
    intro s
    rfl
  | cons x cs ih =>
    intro s
    simp only [List.foldlM_cons, List.map_cons, List.flatten_cons, List.foldlM_append]
    rw [hcs x (List.mem_cons_self _ _) s]
    congr 1
    funext s2
    exact ih (fun kc hkc => hcs kc (List.mem_cons_of_mem _ hkc)) s2

theorem walkFuel_eq {V σ : Type} (h : Heap V) (hw : WF h) (fn : σ → Addr → Option σ)
    (fuel : Nat) :
    ∀ (n : Nat) (s : σ), n < h.length → h.length - n ≤ fuel →
      Trie.walkFuel h fn fuel n s = (Trie.preorder h fuel n).foldlM fn s := by
  induction fuel with
  | zero =>
    intro n s hn hf
    omega
  | succ fuel ih =>
    intro n s hn hf
    simp only [Trie.walkFuel, Trie.preorder, List.foldlM_cons]
    cases hfn : fn s n with
    | none => rfl
    | some s1 =>
      simp only [Option.some_bind, Option.bind_eq_bind]
      apply walkChildren_eq
      intro kc hkc s2
      obtain ⟨h1, h2, _, _⟩ := hw.child n kc.1 kc.2 hkc
      exact ih kc.2 s2 h2 (by omega)

theorem Desc_head {V : Type} (h : Heap V) (n k c a : Nat) (hm : (k, c) ∈ (deref h n).Children)
    (hd : Trie.Desc h c a) : Trie.Desc h n a := by
  induction hd with
  | self => exact Trie.Desc.child Trie.Desc.self hm
  | child _ hm2 ih => exact Trie.Desc.child ih hm2

theorem Desc_cases_head {V : Type} (h : Heap V) (n a : Nat) (hd : Trie.Desc h n a) :
    a = n ∨ ∃ k c : Nat, (k, c) ∈ (deref h n).Children ∧ Trie.Desc h c a := by
  induction hd with
  | self => exact Or.inl rfl
  | child hp hm ih =>
    rename_i p k c
    rcases ih with h0 | ⟨k2, c2, hm2, hd2⟩
    · subst h0
      exact Or.inr ⟨k, c, hm, Trie.Desc.self⟩
    · exact Or.inr ⟨k2, c2, hm2, Trie.Desc.child hd2 hm⟩

theorem Desc_path {V : Type} (h : Heap V) (hw : WF h) (n a : Nat) (hd : Trie.Desc h n a) :
    ∃ u : GoString, Trie.FindTrie h n u = some a := by
  induction hd with
  | self => exact ⟨[], rfl⟩
  | child hp hm ih =>
    rename_i p k c
    obtain ⟨u, hu⟩ := ih
    refine ⟨u ++ [k], ?_⟩
    rw [FindTrie_append, hu, Option.some_bind, FindTrie_cons,
      mapGet_of_mem _ _ _ (hw.keys p) hm]
    rfl

theorem mem_preorder {V : Type} (h : Heap V) (hw : WF h) (fuel : Nat) :
    ∀ (n a : Nat), n < h.length → h.length - n ≤ fuel →
      (a ∈ Trie.preorder h fuel n ↔ Trie.Desc h n a) := by
  induction fuel with
  | zero =>
    intro n a hn hf
    omega
  | succ fuel ih =>
    intro n a hn hf
    simp only [Trie.preorder, List.mem_cons, List.mem_flatten, List.mem_map]
    constructor
    · rintro (h0 | ⟨l, ⟨kc, hkc, rfl⟩, hal⟩)
      · rw [h0]
        exact Trie.Desc.self
      · obtain ⟨h1, h2, _, _⟩ := hw.child n kc.1 kc.2 hkc
        exact Desc_head h n kc.1 kc.2 a hkc ((ih kc.2 a h2 (by omega)).mp hal)
    · intro hd
      rcases Desc_cases_head h n a hd with h0 | ⟨k, c, hm, hd2⟩
      · exact Or.inl h0
      · obtain ⟨h1, h2, _, _⟩ := hw.child n k c hm
        exact Or.inr ⟨_, ⟨(k, c), hm, rfl⟩, (ih c a h2 (by omega)).mpr hd2⟩

theorem siblings_disjoint {V : Type} (h : Heap V) (hw : WF h) (n : Nat) (hn : n < h.length)
    (k1 c1 k2 c2 a : Nat) (hm1 : (k1, c1) ∈ (deref h n).Children)
    (hm2 : (k2, c2) ∈ (deref h n).Children) (hk : k1 ≠ k2)
    (hd1 : Trie.Desc h c1 a) (hd2 : Trie.Desc h c2 a) : False := by
  obtain ⟨u1, hu1⟩ := Desc_path h hw c1 a hd1
  obtain ⟨u2, hu2⟩ := Desc_path h hw c2 a hd2
  have p1 : Trie.FindTrie h n (k1 :: u1) = some a := by
    rw [FindTrie_cons, mapGet_of_mem _ _ _ (hw.keys n) hm1]
    exact hu1
  have p2 : Trie.FindTrie h n (k2 :: u2) = some a := by
    rw [FindTrie_cons, mapGet_of_mem _ _ _ (hw.keys n) hm2]
    exact hu2
  have := FindTrie_inj h hw n hn _ _ a p1 p2
  exact hk (List.cons.inj this).1

theorem nodup_preorder {V : Type} (h : Heap V) (hw : WF h) (fuel : Nat) :
    ∀ n : Nat, n < h.length → h.length - n ≤ fuel → (Trie.preorder h fuel n).Nodup := by
  induction fuel with
  | zero =>
    intro n hn hf
    omega
  | succ fuel ih =>
    intro n hn hf
    simp only [Trie.preorder, List.nodup_cons, List.mem_flatten, List.mem_map]
    refine ⟨?_, ?_⟩
    · rintro ⟨l, ⟨kc, hkc, rfl⟩, hal⟩
      obtain ⟨h1, h2, _, _⟩ := hw.child n kc.1 kc.2 hkc
      have := (Desc_bound h hw kc.2 n ((mem_preorder h hw fuel kc.2 n h2 (by omega)).mp hal)).1
      omega
    · rw [List.nodup_flatten]
      refine ⟨?_, ?_⟩
      · intro l hl
        obtain ⟨kc, hkc, rfl⟩ := List.mem_map.mp hl
        obtain ⟨h1, h2, _, _⟩ := hw.child n kc.1 kc.2 hkc
        exact ih kc.2 h2 (by omega)
      · rw [List.pairwise_map]
        have hkeys : (deref h n).Children.Pairwise (fun x y => x.1 ≠ y.1) := by
          have := hw.keys n
          simp only [mapKeys, List.Nodup, List.pairwise_map] at this
          exact this
        refine hkeys.imp_of_mem ?_
        intro x y hx hy hxy
        obtain ⟨_, x2, _, _⟩ := hw.child n x.1 x.2 hx
        obtain ⟨_, y2, _, _⟩ := hw.child n y.1 y.2 hy
        intro a hax hay
        exact siblings_disjoint h hw n hn x.1 x.2 y.1 y.2 a hx hy hxy
          ((mem_preorder h hw fuel x.2 a x2 (by omega)).mp hax)
          ((mem_preorder h hw fuel y.2 a y2 (by omega)).mp hay)

theorem preorder_parent_first {V : Type} (h : Heap V) (hw : WF h) (fuel : Nat) :
    ∀ (n p k c : Nat), n < h.length → h.length - n ≤ fuel → p ∈ Trie.preorder h fuel n →
      (k, c) ∈ (deref h p).Children →
      ∃ l1 l2 : List Addr, Trie.preorder h fuel n = l1 ++ p :: l2 ∧ c ∈ l2 := by
  induction fuel with
  | zero =>
    intro n p k c hn hf
    omega
  | succ fuel ih =>
    intro n p k c hn hf hp hm
    simp only [Trie.preorder, List.mem_cons] at hp ⊢
    rcases hp with h0 | hin
    · subst h0
      refine ⟨[], _, rfl, ?_⟩
      obtain ⟨h1, h2, _, _⟩ := hw.child p k c hm
      rw [List.mem_flatten]
      exact ⟨_, List.mem_map.mpr ⟨(k, c), hm, rfl⟩,
        (mem_preorder h hw fuel c c h2 (by omega)).mpr Trie.Desc.self⟩
    · rw [List.mem_flatten] at hin
      obtain ⟨l, hl, hpl⟩ := hin
      obtain ⟨kc, hkc, rfl⟩ := List.mem_map.mp hl
      obtain ⟨h1, h2, _, _⟩ := hw.child n kc.1 kc.2 hkc
      obtain ⟨l1, l2, hsplit, hc⟩ := ih kc.2 p k c h2 (by omega) hpl hm
      obtain ⟨A, B, hAB⟩ := List.append_of_mem hkc
      refine ⟨n :: ((A.map fun kc => Trie.preorder h fuel kc.2).flatten ++ l1),
        l2 ++ (B.map fun kc => Trie.preorder h fuel kc.2).flatten, ?_, ?_⟩
      · rw [hAB]
        simp only [List.map_append, List.map_cons, List.flatten_append, List.flatten_cons,
          hsplit, List.cons_append, List.append_assoc]
      · exact List.mem_append_left _ hc

/-- C17: `Walk` is a complete preorder traversal.  In a trie built from
`NewRootTrie()` by `Insert` calls, for every node `n` of the tree there is a list
`l` of nodes such that `n.Walk(fn)` is, for every visitor `fn`, the calls of `fn`
on the nodes of `l` in order; `l` has no node twice; its nodes are exactly the
nodes of the subtree rooted at `n`; it starts with `n`; and every node of `l`
stands before each of its children. -/
theorem walk_preorder {V : Type} (ops : List (GoString × Option V)) (n : Addr)
    (hn : Trie.Desc (insertAll ops) root n) :
    ∃ l : List Addr,
      (∀ (σ : Type) (fn : σ → Addr → Option σ) (s : σ),
        Trie.Walk (insertAll ops) fn n s = l.foldlM fn s) ∧
      l.Nodup ∧
      (∀ a : Addr, a ∈ l ↔ Trie.Desc (insertAll ops) n a) ∧
      l.head? = some n ∧
      (∀ (p : Addr) (k : Rune) (c : Addr), p ∈ l →
        (k, c) ∈ (deref (insertAll ops) p).Children →
        ∃ l1 l2 : List Addr, l = l1 ++ p :: l2 ∧ c ∈ l2) := by
  have hw := WF_insertAll ops
  generalize insertAll ops = h at hw hn ⊢
  have hlt : n < h.length := (Desc_bound h hw root n hn).2 hw.nonempty
  have hfuel : h.length - n ≤ h.length + 1 := by omega
  refine ⟨Trie.preorder h (h.length + 1) n, ?_, ?_, ?_, rfl, ?_⟩
  · intro σ fn s
    exact walkFuel_eq h hw fn (h.length + 1) n s hlt hfuel
  · exact nodup_preorder h hw (h.length + 1) n hlt hfuel
  · intro a
    exact mem_preorder h hw (h.length + 1) n a hlt hfuel
  · intro p k c hp hm
    exact preorder_parent_first h hw (h.length + 1) n p k c hlt hfuel hp hm

/-- C17 at a concrete input: the walk from the root of the trie holding `"ab"` and
`"c"`. -/
theorem walk_preorder_witness :
    ∃ l : List Addr,
      (∀ (σ : Type) (fn : σ → Addr → Option σ) (s : σ),
        Trie.Walk (insertAll [([97, 98], (some 1 : Option Nat)), ([99], some 2)]) fn root s
          = l.foldlM fn s) ∧
      l.Nodup ∧
      (∀ a : Addr, a ∈ l ↔
        Trie.Desc (insertAll [([97, 98], (some 1 : Option Nat)), ([99], some 2)]) root a) ∧
      l.head? = some root ∧
      (∀ (p : Addr) (k : Rune) (c : Addr), p ∈ l →
        (k, c) ∈ (deref (insertAll [([97, 98], (some 1 : Option Nat)), ([99], some 2)])
          p).Children →
        ∃ l1 l2 : List Addr, l = l1 ++ p :: l2 ∧ c ∈ l2) :=
  walk_preorder [([97, 98], (some 1 : Option Nat)), ([99], some 2)] root Trie.Desc.self

/-! ## Completion of the operations -/

theorem stringLoop_total {V : Type} (h : Heap V) (hw : WF h) (fuel : Nat) :
    ∀ (t : Nat) (chrs : List Rune), t < fuel →
      ∃ r : List Rune, Trie.stringLoop h fuel (some t) chrs = some r := by
  induction fuel with
  | zero =>
    intro t chrs ht
    omega
  | succ fuel ih =>
    intro t chrs ht
    simp only [Trie.stringLoop]
    by_cases hc : (deref h t).Char ≠ RootTrieChar
    · rw [if_pos hc]
      cases hp : (deref h t).Parent with
      | none =>
        cases fuel <;> exact ⟨_, rfl⟩
      | some p =>
        have := hw.parent t p hp
        exact ih p _ (by omega)
    · rw [if_neg hc]
      exact ⟨_, rfl⟩

theorem String_total {V : Type} (h : Heap V) (hw : WF h) (t : Nat) :
    ∃ r : GoString, Trie.String h t = some r := by
  rcases Nat.lt_or_ge t h.length with hlt | hge
  · obtain ⟨r, hr⟩ := stringLoop_total h hw (h.length + 1) t [] (by omega)
    exact ⟨runesToString r, by simp [Trie.String, hr]⟩
  · refine ⟨runesToString [], ?_⟩
    simp [Trie.String, Trie.stringLoop, deref_of_ge h t hge, RootTrieChar]

theorem toMapVisit_total {V : Type} (h : Heap V) (hw : WF h)
    (ret : GoMap GoString (Option V)) (node : Nat) :
    ∃ r : GoMap GoString (Option V), Trie.toMapVisit h ret node = some r := by
  simp only [Trie.toMapVisit]
  by_cases ht : (deref h node).Terminal = true
  · obtain ⟨k, hk⟩ := String_total h hw node
    simp [ht, hk]
  · simp [ht]

theorem foldlM_total {α β : Type} (f : β → α → Option β)
    (hf : ∀ (s : β) (a : α), ∃ r : β, f s a = some r) (l : List α) :
    ∀ s : β, ∃ r : β, l.foldlM f s = some r := by
  induction l with
  | nil =>
    intro s
    exact ⟨s, rfl⟩
  | cons a l ih =>
    intro s
    obtain ⟨r, hr⟩ := hf s a
    simp only [List.foldlM_cons, hr]
    exact ih r

theorem ToMap_total {V : Type} (h : Heap V) (hw : WF h) (t : Nat) (ht : t < h.length) :
    ∃ m : GoMap GoString (Option V), Trie.ToMap h t = some m := by
  simp only [Trie.ToMap, Trie.Walk]
  rw [walkFuel_eq h hw (Trie.toMapVisit h) (h.length + 1) t [] ht (by omega)]
  exact foldlM_total _ (toMapVisit_total h hw) _ _

/-! ## The operations with faults never fail -/

theorem eraseHeap_length {V : Type} (ch : CHeap V) : (eraseHeap ch).length = ch.length := by
  simp [eraseHeap]

theorem cderef_lt {V : Type} (ch : CHeap V) (a : Nat) (ha : a < ch.length) :
    ∃ t : CTrie V, cderef ch a = .ok t ∧ t ∈ ch ∧ deref (eraseHeap ch) a = t.erase := by
  refine ⟨ch.get ⟨a, ha⟩, ?_, List.get_mem _ _ _, ?_⟩
  · simp [cderef, List.get?_eq_getElem?, List.getElem?_eq_getElem ha]
  · simp [deref, eraseHeap, List.get?_eq_getElem?, List.getElem?_eq_getElem ha]

theorem csearchLoop_eq {V : Type} (ch : CHeap V) (hw : WF (eraseHeap ch))
    (l : List (Nat × Rune)) :
    ∀ (i t : Nat), t < ch.length →
      CTrie.searchLoop ch l i t = .ok (Trie.searchLoop (eraseHeap ch) l i t) := by
  induction l with
  | nil =>
    intro i t _
    rfl
  | cons x rest ih =>
    intro i t ht
    obtain ⟨k, chr⟩ := x
    obtain ⟨tt, h1, _, h3⟩ := cderef_lt ch t ht
    have hread : mapRead tt.Children chr = mapGet (deref (eraseHeap ch) t).Children chr := by
      rw [h3]
      rfl
    simp only [CTrie.searchLoop, Trie.searchLoop, h1, hread]
    cases hg : mapGet (deref (eraseHeap ch) t).Children chr with
    | none => rfl
    | some next =>
      simp only
      have hn := (hw.child t chr next (mapGet_mem _ _ _ hg)).2.1
      rw [eraseHeap_length] at hn
      exact ih k next hn

theorem cinsertLoop_eq {V : Type} (l : List (Nat × Rune)) :
    ∀ (ch : CHeap V) (t : Nat), noNilMap ch → t < ch.length →
      ∃ ch2 : CHeap V,
        CTrie.insertLoop ch l t = .ok (ch2, (Trie.insertLoop (eraseHeap ch) l t).2) ∧
        eraseHeap ch2 = (Trie.insertLoop (eraseHeap ch) l t).1 ∧ noNilMap ch2 := by
  induction l with
  | nil =>
    intro ch t hg _
    exact ⟨ch, rfl, rfl, hg⟩
  | cons x rest ih =>
    intro ch t hg ht
    obtain ⟨k, chr⟩ := x
    have hg1 : noNilMap (CTrie.NewTrie ch (some t) chr).1 := by
      intro y hy
      simp only [CTrie.NewTrie, List.mem_append, List.mem_singleton] at hy
      rcases hy with hy | hy
      · exact hg y hy
      · rw [hy]
        simp
    have hlen1 : (CTrie.NewTrie ch (some t) chr).1.length = ch.length + 1 := by
      simp [CTrie.NewTrie]
    obtain ⟨tt, h1, h2, h3⟩ := cderef_lt (CTrie.NewTrie ch (some t) chr).1 t (by omega)
    obtain ⟨m, hm⟩ := Option.ne_none_iff_exists'.mp (hg1 tt h2)
    have herase : eraseHeap ((CTrie.NewTrie ch (some t) chr).1.set t
        { tt with Children := some (mapSet m chr ch.length) })
        = addChild (eraseHeap ch) t chr := by
      have hnew : eraseHeap (CTrie.NewTrie ch (some t) chr).1
          = (NewTrie (eraseHeap ch) (some t) chr).1 := by
        simp [eraseHeap, CTrie.NewTrie, NewTrie, CTrie.erase]
      simp only [eraseHeap, List.map_set] at hnew h3 ⊢
      rw [hnew] at h3 ⊢
      simp only [addChild]
      rw [h3]
      simp [CTrie.erase, hm, NewTrie]
    have hg2 : noNilMap ((CTrie.NewTrie ch (some t) chr).1.set t
        { tt with Children := some (mapSet m chr ch.length) }) := by
      intro y hy
      rcases List.mem_or_eq_of_mem_set hy with hy | hy
      · exact hg1 y hy
      · rw [hy]
        simp
    obtain ⟨ch2, i1, i2, i3⟩ := ih _ ch.length hg2 (by rw [List.length_set, hlen1]; omega)
    refine ⟨ch2, ?_, ?_, i3⟩
    · simp only [CTrie.insertLoop, h1, hm, mapWrite]
      rw [insertLoop_cons, eraseHeap_length, ← herase]
      exact i1
    · rw [insertLoop_cons, eraseHeap_length, ← herase]
      exact i2

theorem strSliceFrom_ok (str : GoString) (i : Nat) (hi : i ≤ str.length) :
    strSliceFrom str i = .ok (str.drop i) := by
  simp [strSliceFrom, hi]

theorem cInsert_eq {V : Type} (ch : CHeap V) (hg : noNilMap ch) (hw : WF (eraseHeap ch))
    (str : GoString) (val : Option V) :
    ∃ ch2 : CHeap V, CTrie.Insert ch root str val = .ok ch2 ∧
      eraseHeap ch2 = Trie.Insert (eraseHeap ch) root str val ∧ noNilMap ch2 := by
  have hr : root < ch.length := by
    have := hw.nonempty
    rw [eraseHeap_length] at this
    exact this
  have hs := searchLoop_lt (eraseHeap ch) hw (rangeStr str) 0 root hw.nonempty
  have hs2 : (Trie.searchLoop (eraseHeap ch) (rangeStr str) 0 root).2 < ch.length := by
    rw [eraseHeap_length] at hs
    exact hs
  obtain ⟨ch1, l1, l2, l3⟩ := cinsertLoop_eq
    (rangeStr (str.drop (Trie.searchLoop (eraseHeap ch) (rangeStr str) 0 root).1)) ch _ hg hs2
  have hres := (insertLoop_spec
    (rangeStr (str.drop (Trie.searchLoop (eraseHeap ch) (rangeStr str) 0 root).1))
    (eraseHeap ch) _ hw hs).2.2.1
  rw [← l2, eraseHeap_length] at hres
  obtain ⟨tt, d1, d2, d3⟩ := cderef_lt ch1 _ hres
  refine ⟨ch1.set (Trie.insertLoop (eraseHeap ch)
      (rangeStr (str.drop (Trie.searchLoop (eraseHeap ch) (rangeStr str) 0 root).1))
      (Trie.searchLoop (eraseHeap ch) (rangeStr str) 0 root).2).2
      { tt with Terminal := true, Value := val }, ?_, ?_, ?_⟩
  · simp only [CTrie.Insert, csearchLoop_eq ch hw (rangeStr str) 0 root hr,
      strSliceFrom_ok str _ (searchLoop_index_bound (eraseHeap ch) str root).1, l1, d1]
  · rw [Insert_eq, ← l2]
    simp only [markTerminal, eraseHeap, List.map_set]
    simp only [eraseHeap] at d3
    rw [d3]
    rfl
  · intro y hy
    rcases List.mem_or_eq_of_mem_set hy with hy | hy
    · exact l3 y hy
    · rw [hy]
      exact l3 tt d2

theorem cinsertAll_fold {V : Type} (ops : List (GoString × Option V)) :
    ∀ ch : CHeap V, noNilMap ch → WF (eraseHeap ch) →
      ∃ ch2 : CHeap V,
        ops.foldlM (fun h sv => CTrie.Insert h root sv.1 sv.2) ch = .ok ch2 ∧
        eraseHeap ch2 = ops.foldl (fun h sv => Trie.Insert h root sv.1 sv.2) (eraseHeap ch) ∧
        noNilMap ch2 := by
  induction ops with
  | nil =>
    intro ch hg _
    exact ⟨ch, rfl, rfl, hg⟩
  | cons x rest ih =>
    intro ch hg hw
    obtain ⟨ch1, c1, c2, c3⟩ := cInsert_eq ch hg hw x.1 x.2
    have hw1 : WF (eraseHeap ch1) := by
      rw [c2]
      exact WF_Insert _ hw _ _
    obtain ⟨ch2, i1, i2, i3⟩ := ih ch1 c3 hw1
    refine ⟨ch2, ?_, ?_, i3⟩
    · simp only [List.foldlM_cons, c1]
      exact i1
    · rw [List.foldl_cons, ← c2]
      exact i2

theorem cinsertAll_eq {V : Type} (ops : List (GoString × Option V)) :
    ∃ ch : CHeap V, CTrie.insertAll ops = .ok ch ∧ eraseHeap ch = insertAll ops ∧
      noNilMap ch := by
  have h0 : noNilMap (CTrie.NewRootTrie ([] : CHeap V)).1 := by
    intro y hy
    simp only [CTrie.NewRootTrie, CTrie.NewTrie, List.nil_append, List.mem_singleton] at hy
    rw [hy]
    simp
  have he : eraseHeap (CTrie.NewRootTrie ([] : CHeap V)).1 = emptyRoot V := rfl
  have hw0 : WF (eraseHeap (CTrie.NewRootTrie ([] : CHeap V)).1) := by
    rw [he]
    exact WF_emptyRoot V
  obtain ⟨ch, c1, c2, c3⟩ := cinsertAll_fold ops _ h0 hw0
  exact ⟨ch, c1, by rw [c2, he]; rfl, c3⟩

theorem cfindTrie_eq {V : Type} (ch : CHeap V) (hw : WF (eraseHeap ch)) (str : GoString) :
    ∀ (fuel t : Nat), str.length < fuel → t < ch.length →
      CTrie.findTrieFuel ch fuel t str = .ok (Trie.FindTrie (eraseHeap ch) t str) := by
  induction str with
  | nil =>
    intro fuel t hf _
    cases fuel with
    | zero => omega
    | succ fuel => rfl
  | cons b rest ih =>
    intro fuel t hf ht
    cases fuel with
    | zero => omega
    | succ fuel =>
      obtain ⟨tt, h1, _, h3⟩ := cderef_lt ch t ht
      have hread : mapRead tt.Children b = mapGet (deref (eraseHeap ch) t).Children b := by
        rw [h3]
        rfl
      simp only [CTrie.findTrieFuel, List.length_cons, Nat.add_one_ne_zero, if_false,
        strIndex, List.get?_cons_zero, h1, hread, FindTrie_cons]
      cases hg : mapGet (deref (eraseHeap ch) t).Children b with
      | none => rfl
      | some next =>
        have hn := (hw.child t b next (mapGet_mem _ _ _ hg)).2.1
        rw [eraseHeap_length] at hn
        simp only [Option.some_bind]
        rw [strSliceFrom_ok (b :: rest) 1 (by simp)]
        simp only [List.drop_succ_cons, List.drop_zero]
        exact ih fuel next (by simpa using hf) hn

theorem cFindTrie_eq {V : Type} (ch : CHeap V) (hw : WF (eraseHeap ch)) (str : GoString)
    (t : Nat) (ht : t < ch.length) :
    CTrie.FindTrie ch t str = .ok (Trie.FindTrie (eraseHeap ch) t str) :=
  cfindTrie_eq ch hw str (str.length + 1) t (Nat.lt_succ_self _) ht

theorem cFind_eq {V : Type} (ch : CHeap V) (hw : WF (eraseHeap ch)) (str : GoString)
    (t : Nat) (ht : t < ch.length) :
    CTrie.Find ch t str = .ok (Trie.Find (eraseHeap ch) t str) := by
  simp only [CTrie.Find, Trie.Find, cFindTrie_eq ch hw str t ht]
  cases hf : Trie.FindTrie (eraseHeap ch) t str with
  | none => rfl
  | some ret =>
    have hret := (FindTrie_bound (eraseHeap ch) hw str t ret
      (by rw [eraseHeap_length]; exact ht) hf).2.1
    rw [eraseHeap_length] at hret
    obtain ⟨tt, h1, _, h3⟩ := cderef_lt ch ret hret
    simp only [h1, h3, CTrie.erase]
    cases tt.Terminal <;> rfl

theorem cstringLoop_eq {V : Type} (ch : CHeap V) (hw : WF (eraseHeap ch)) (fuel : Nat) :
    ∀ (t : Nat) (chrs : List Rune), t < ch.length → t < fuel →
      ∃ r : List Rune, CTrie.stringLoop ch fuel (some t) chrs = .ok r ∧
        Trie.stringLoop (eraseHeap ch) fuel (some t) chrs = some r := by
  induction fuel with
  | zero =>
    intro t chrs _ hf
    omega
  | succ fuel ih =>
    intro t chrs ht hf
    obtain ⟨tt, h1, _, h3⟩ := cderef_lt ch t ht
    simp only [CTrie.stringLoop, Trie.stringLoop, h1, h3]
    have hc : tt.erase.Char = tt.Char := rfl
    have hp : tt.erase.Parent = tt.Parent := rfl
    rw [hc, hp]
    by_cases hz : tt.Char ≠ RootTrieChar
    · rw [if_pos hz, if_pos hz]
      cases hpar : tt.Parent with
      | none =>
        cases fuel <;> exact ⟨_, rfl, rfl⟩
      | some p =>
        have hlt : p < t := hw.parent t p (by rw [h3, hp, hpar])
        exact ih p _ (Nat.lt_trans hlt ht) (Nat.lt_of_lt_of_le hlt (Nat.le_of_lt_succ hf))
    · rw [if_neg hz, if_neg hz]
      exact ⟨_, rfl, rfl⟩

theorem cString_eq {V : Type} (ch : CHeap V) (hw : WF (eraseHeap ch)) (t : Nat)
    (ht : t < ch.length) :
    ∃ r : GoString, CTrie.String ch t = .ok r ∧ Trie.String (eraseHeap ch) t = some r := by
  obtain ⟨r, h1, h2⟩ := cstringLoop_eq ch hw (ch.length + 1) t [] ht (by omega)
  refine ⟨runesToString r, ?_, ?_⟩
  · simp only [CTrie.String, h1]
  · simp only [Trie.String, eraseHeap_length, h2, Option.map_some']

theorem ctoMapVisit_eq {V : Type} (ch : CHeap V) (hw : WF (eraseHeap ch))
    (ret : GoMap GoString (Option V)) (node : Nat) (hn : node < ch.length) :
    ∃ r : GoMap GoString (Option V), CTrie.toMapVisit ch ret node = .ok r ∧
      Trie.toMapVisit (eraseHeap ch) ret node = some r := by
  obtain ⟨tt, h1, _, h3⟩ := cderef_lt ch node hn
  obtain ⟨key, k1, k2⟩ := cString_eq ch hw node hn
  simp only [CTrie.toMapVisit, Trie.toMapVisit, h1, h3, k1, k2]
  have ht : tt.erase.Terminal = tt.Terminal := rfl
  have hv : tt.erase.Value = tt.Value := rfl
  rw [ht, hv]
  cases tt.Terminal
  · exact ⟨ret, rfl, rfl⟩
  · exact ⟨mapSet ret key tt.Value, rfl, rfl⟩

theorem cwalkChildren_eq {V σ : Type} (ch : CHeap V) (fn : σ → Addr → Except Fault σ)
    (fuel : Nat) (cs : List (Rune × Addr))
    (hcs : ∀ kc ∈ cs, ∀ s : σ,
      CTrie.walkFuel ch fn fuel kc.2 s = (Trie.preorder (eraseHeap ch) fuel kc.2).foldlM fn s) :
    ∀ s : σ, cs.foldlM (fun acc kc => CTrie.walkFuel ch fn fuel kc.2 acc) s
      = ((cs.map fun kc => Trie.preorder (eraseHeap ch) fuel kc.2).flatten).foldlM fn s := by
  induction cs with
  | nil =>
    intro s
    rfl
  | cons x cs ih =>
    intro s
    simp only [List.foldlM_cons, List.map_cons, List.flatten_cons, List.foldlM_append]
    rw [hcs x (List.mem_cons_self _ _) s]
    congr 1
    funext s2
    exact ih (fun kc hkc => hcs kc (List.mem_cons_of_mem _ hkc)) s2

theorem cwalkFuel_eq {V σ : Type} (ch : CHeap V) (hw : WF (eraseHeap ch))
    (fn : σ → Addr → Except Fault σ) (fuel : Nat) :
    ∀ (n : Nat) (s : σ), n < ch.length → ch.length - n ≤ fuel →
      CTrie.walkFuel ch fn fuel n s = (Trie.preorder (eraseHeap ch) fuel n).foldlM fn s := by
  induction fuel with
  | zero =>
    intro n s hn hf
    omega
  | succ fuel ih =>
    intro n s hn hf
    obtain ⟨tt, h1, _, h3⟩ := cderef_lt ch n hn
    simp only [CTrie.walkFuel, Trie.preorder, List.foldlM_cons, h1, h3]
    have hch : tt.erase.Children = tt.Children.getD [] := rfl
    rw [hch]
    cases hfn : fn s n with
    | error e => rfl
    | ok s1 =>
      simp only [bind, Except.bind]
      apply cwalkChildren_eq
      intro kc hkc s2
      have hm : (kc.1, kc.2) ∈ (deref (eraseHeap ch) n).Children := by
        rw [h3, hch]
        exact hkc
      obtain ⟨c1, c2, _, _⟩ := hw.child n kc.1 kc.2 hm
      rw [eraseHeap_length] at c2
      exact ih kc.2 s2 c2 (by omega)

theorem foldlM_both {α β : Type} (fC : β → α → Except Fault β) (fU : β → α → Option β)
    (l : List α)
    (hf : ∀ a ∈ l, ∀ s : β, ∃ r : β, fC s a = .ok r ∧ fU s a = some r) :
    ∀ s : β, ∃ r : β, l.foldlM fC s = .ok r ∧ l.foldlM fU s = some r := by
  induction l with
  | nil =>
    intro s
    exact ⟨s, rfl, rfl⟩
  | cons a l ih =>
    intro s
    obtain ⟨r, h1, h2⟩ := hf a (List.mem_cons_self _ _) s
    obtain ⟨r2, i1, i2⟩ := ih (fun b hb => hf b (List.mem_cons_of_mem _ hb)) r
    refine ⟨r2, ?_, ?_⟩
    · simp only [List.foldlM_cons, h1, bind, Except.bind]
      exact i1
    · simp only [List.foldlM_cons, h2, Option.bind_eq_bind, Option.some_bind]
      exact i2

theorem cToMap_eq {V : Type} (ch : CHeap V) (hw : WF (eraseHeap ch)) (t : Nat)
    (ht : t < ch.length) :
    ∃ m : GoMap GoString (Option V), CTrie.ToMap ch t = .ok m ∧
      Trie.ToMap (eraseHeap ch) t = some m := by
  have ht2 : t < (eraseHeap ch).length := by rw [eraseHeap_length]; exact ht
  simp only [CTrie.ToMap, CTrie.Walk, Trie.ToMap, Trie.Walk]
  rw [cwalkFuel_eq ch hw _ (ch.length + 1) t [] ht (by omega),
    walkFuel_eq (eraseHeap ch) hw _ ((eraseHeap ch).length + 1) t [] ht2 (by omega),
    eraseHeap_length]
  apply foldlM_both
  intro a ha s
  have hd := (mem_preorder (eraseHeap ch) hw (ch.length + 1) t a ht2
    (by rw [eraseHeap_length]; omega)).mp ha
  have ha2 := (Desc_bound (eraseHeap ch) hw t a hd).2 ht2
  rw [eraseHeap_length] at ha2
  exact ctoMapVisit_eq ch hw s a ha2

theorem cFindSuffixes_eq {V : Type} (ch : CHeap V) (hw : WF (eraseHeap ch)) (pfx : GoString) :
    ∃ r : List GoString, CTrie.FindSuffixes ch root pfx = .ok r ∧
      Trie.FindSuffixes (eraseHeap ch) root pfx = some r := by
  have hr : root < ch.length := by
    have := hw.nonempty
    rw [eraseHeap_length] at this
    exact this
  simp only [CTrie.FindSuffixes, Trie.FindSuffixes, cFindTrie_eq ch hw pfx root hr]
  cases hf : Trie.FindTrie (eraseHeap ch) root pfx with
  | none => exact ⟨[], rfl, rfl⟩
  | some t =>
    have ht := (FindTrie_bound (eraseHeap ch) hw pfx root t
      (by rw [eraseHeap_length]; exact hr) hf).2.1
    rw [eraseHeap_length] at ht
    obtain ⟨m, m1, m2⟩ := cToMap_eq ch hw t ht
    simp only [m1, m2]
    exact ⟨mapKeys m, rfl, rfl⟩

/-- The faults are real in the embedding: `str[0]` on the empty string, `str[3:]` on
a string of two bytes, `Insert("a", nil)` on a node whose `Children` map is nil (a
zero-value `Trie` that `NewTrie` did not make), and `FindTrie("a")` from a pointer
to no node all fail. -/
theorem faults_reachable :
    strIndex [] 0 = .error .indexOutOfRange ∧
    strSliceFrom [97, 98] 3 = .error .sliceOutOfRange ∧
    CTrie.Insert ([⟨0, none, none, false, none⟩] : CHeap Nat) 0 [97] none
      = .error .nilMapWrite ∧
    CTrie.FindTrie ([] : CHeap Nat) 0 [97] = .error .nilDeref :=
  ⟨rfl, rfl, rfl, rfl⟩

/-- C15: no operation fails.  The operations are embedded with Go's run-time
faults explicit (`CTrie`): `str[0]` faults on an empty string, `str[i:]` faults
when `i > len(str)`, a write to a nil `Children` map faults, and so does a field
read through a pointer to no node.  For every list of `Insert` calls on
`NewRootTrie()`, the calls complete without a fault and give a heap `ch` that
stands for `insertAll ops`, in which no node has a nil `Children` map; and on
`ch`, for every string `str` and value `val`: the first loop of `Insert` ends with
an index `i <= len(str)` and the slice `str[i:]` is valid; `Insert(str, val)`
completes without a fault (so every map it writes is non-nil) and gives the heap
of the total `Insert`; `FindTrie(str)` completes without a fault (so it reads
`str[0]` only on a non-empty string) and `Find`, `ToMap` and `FindSuffixes`
complete, each with the result of the total operation. -/
theorem operations_complete {V : Type} (ops : List (GoString × Option V)) (str : GoString)
    (val : Option V) :
    ∃ ch : CHeap V,
      CTrie.insertAll ops = .ok ch ∧
      eraseHeap ch = insertAll ops ∧
      (∀ t ∈ ch, t.Children ≠ none) ∧
      (∃ it : Nat × Addr, CTrie.searchLoop ch (rangeStr str) 0 root = .ok it ∧
        it = Trie.searchLoop (insertAll ops) (rangeStr str) 0 root ∧
        it.1 ≤ str.length ∧ it.2 < ch.length ∧
        strSliceFrom str it.1 = .ok (str.drop it.1)) ∧
      (∃ ch2 : CHeap V, CTrie.Insert ch root str val = .ok ch2 ∧
        eraseHeap ch2 = Trie.Insert (insertAll ops) root str val ∧
        (∀ t ∈ ch2, t.Children ≠ none)) ∧
      CTrie.FindTrie ch root str = .ok (Trie.FindTrie (insertAll ops) root str) ∧
      CTrie.Find ch root str = .ok (Trie.Find (insertAll ops) root str) ∧
      (∃ m : GoMap GoString (Option V), CTrie.ToMap ch root = .ok m ∧
        Trie.ToMap (insertAll ops) root = some m) ∧
      (∃ r : List GoString, CTrie.FindSuffixes ch root str = .ok r ∧
        Trie.FindSuffixes (insertAll ops) root str = some r) := by
  obtain ⟨ch, c1, c2, c3⟩ := cinsertAll_eq ops
  have hw : WF (eraseHeap ch) := by
    rw [c2]
    exact WF_insertAll ops
  have hr : root < ch.length := by
    have := hw.nonempty
    rw [eraseHeap_length] at this
    exact this
  have hs := searchLoop_lt (eraseHeap ch) hw (rangeStr str) 0 root hw.nonempty
  rw [eraseHeap_length] at hs
  have hi := (searchLoop_index_bound (eraseHeap ch) str root).1
  refine ⟨ch, c1, c2, c3, ?_, ?_, ?_, ?_, ?_, ?_⟩
  · refine ⟨_, csearchLoop_eq ch hw (rangeStr str) 0 root hr, by rw [c2], hi, hs, ?_⟩
    exact strSliceFrom_ok str _ hi
  · obtain ⟨ch2, i1, i2, i3⟩ := cInsert_eq ch c3 hw str val
    exact ⟨ch2, i1, by rw [i2, c2], i3⟩
  · rw [← c2]
    exact cFindTrie_eq ch hw str root hr
  · rw [← c2]
    exact cFind_eq ch hw str root hr
  · rw [← c2]
    exact cToMap_eq ch hw root hr
  · rw [← c2]
    exact cFindSuffixes_eq ch hw str

/-! ## Characters: bytes, runes and the root sentinel

`Insert` keys the children maps by the runes that `range str` decodes, while
`FindTrie` follows `rune(str[0])`, one byte at a time; and `String()` stops climbing
at the first node whose character is `RootTrieChar`, which is also the character
of a node inserted for the code point 0.  The theorems below evaluate the code on
inputs that reach these paths.  Bytes: 195 169 is the UTF-8 encoding of U+00E9
(233).
-/

/-- C11 (`Insert` and `FindTrie` agree on characters), evaluated where it fails.
On a fresh root, `Insert("\u00e9", 1)` runs one iteration with the rune 233 and
stores one child under the key 233; `FindTrie("\u00e9")` looks up the byte 195
and returns nil, and `Find` returns `(nil, false)`. -/
theorem insert_findTrie_disagree :
    rangeStr [195, 169] = [(0, 233)] ∧
    mapKeys (deref (insertAll [([195, 169], (some 1 : Option Nat))]) root).Children = [233] ∧
    Trie.FindTrie (insertAll [([195, 169], (some 1 : Option Nat))]) root [195, 169] = none ∧
    Trie.Find (insertAll [([195, 169], some 1)]) root [195, 169]
      = ((none : Option Nat), false) := by
  decide

/-- C12 (path reconstruction), evaluated where it fails.  On a fresh root,
`Insert("a\x00b", 1)` creates the nodes 1, 2, 3 for `a`, the code point 0 and `b`
and marks node 3 terminal; `String()` of node 3 is `"b"`, not `"a\x00b"`.  On a
fresh root, `Insert("\x00", 1)` marks node 1 terminal and its `String()` is empty. -/
theorem string_stops_at_zero :
    Trie.FindTrie (insertAll [([97, 0, 98], (some 1 : Option Nat))]) root [97, 0, 98]
      = some 3 ∧
    (deref (insertAll [([97, 0, 98], (some 1 : Option Nat))]) 3).Terminal = true ∧
    Trie.String (insertAll [([97, 0, 98], (some 1 : Option Nat))]) 3 = some [98] ∧
    Trie.FindTrie (insertAll [([0], (some 1 : Option Nat))]) root [0] = some 1 ∧
    (deref (insertAll [([0], (some 1 : Option Nat))]) 1).Terminal = true ∧
    Trie.String (insertAll [([0], (some 1 : Option Nat))]) 1 = some [] := by
  decide

/-- C13 (one key per terminal node), evaluated where it fails.  After
`Insert("b", 1)` and `Insert("\x00b", 2)` the nodes 1 (path `b`) and 3 (path
code point 0, `b`) are distinct terminal nodes with the same `String()`, `"b"`;
the tree has 2 terminal nodes and `root.ToMap()` has 1 entry. -/
theorem toMap_keys_collide :
    Trie.FindTrie (insertAll [([98], (some 1 : Option Nat)), ([0, 98], some 2)]) root [98]
      = some 1 ∧
    Trie.FindTrie (insertAll [([98], (some 1 : Option Nat)), ([0, 98], some 2)]) root [0, 98]
      = some 3 ∧
    (deref (insertAll [([98], (some 1 : Option Nat)), ([0, 98], some 2)]) 1).Terminal = true ∧
    (deref (insertAll [([98], (some 1 : Option Nat)), ([0, 98], some 2)]) 3).Terminal = true ∧
    Trie.String (insertAll [([98], (some 1 : Option Nat)), ([0, 98], some 2)]) 1
      = some [98] ∧
    Trie.String (insertAll [([98], (some 1 : Option Nat)), ([0, 98], some 2)]) 3
      = some [98] ∧
    Trie.Walk (insertAll [([98], (some 1 : Option Nat)), ([0, 98], some 2)])
      (fun k node =>
        some (if (deref (insertAll [([98], (some 1 : Option Nat)), ([0, 98], some 2)])
          node).Terminal then k + 1 else k)) root 0 = some 2 ∧
    (Trie.ToMap (insertAll [([98], (some 1 : Option Nat)), ([0, 98], some 2)]) root).map
      List.length = some 1 := by
  decide

end Algoholic
